import Mathlib

/-!
Verification development for the path-addressed JSON mutation engine of
`src/features/modals/NodeModal/index.tsx`.

The TypeScript source manipulates dynamically typed JavaScript values.  We
shallowly embed the JSON fragment it works on as the inductive type `JVal`,
and translate each source function into an executable Lean definition.
Conventions used throughout, justified where they are introduced:

* JavaScript exceptions (JSON.parse failures, TypeError on writing a
  property of a primitive in strict mode) are modelled by `Option`/`none`.
* JSON numbers are modelled as integers.  Fractional and exponent syntax is
  outside the model (the model parser rejects it, JSON.parse accepts it);
  integers are kept exact, whereas JavaScript loses precision above 2^53.
  No claim in this development depends on non-integer numerics.
* Object fields are association lists in insertion order.  JavaScript
  enumerates integer-like keys first (ascending) when iterating own
  properties; that reordering is applied explicitly by `jsOwnOrder` at the
  places where the source iterates or serializes an object.
* Array indices are unbounded naturals; JavaScript treats indices at or
  above 2^32 - 1 as plain string properties.  Keys are checked against the
  2^32 - 1 bound by `arrayIndex?` where the distinction is modelled.
-/

/-- A JSON value, as produced by JSON.parse in the source. -/
inductive JVal where
  | null : JVal
  | bool : Bool → JVal
  | num : Int → JVal
  | str : String → JVal
  | arr : List JVal → JVal
  | obj : List (String × JVal) → JVal
  deriving Inhabited

/-- A path segment: `NodeData["path"]` elements are numbers (array indices)
or strings (object keys). -/
inductive Seg where
  | num : Nat → Seg
  | str : String → Seg
  deriving DecidableEq, Inhabited

/-- Modelled from the spec: a row of a node row-list (`NodeData["text"]`),
whose TypeScript type (`src/types/graph`) is not part of the given sources.
Per spec section 3 a row is an entry `\x7bkey?, value, type\x7d`; per spec
section 4.1 the value is held in its stringified textual form (the bare
value, not JSON-quoted again), so `value` is the JSON text of the scalar it
denotes and `type` is the type tag compared against "array"/"object" by the
source. `key` is optional; JavaScript treats both a missing key and the
empty string as falsy. -/
structure Row where
  key : Option String
  value : String
  type : String
  deriving DecidableEq, Inhabited

/-- JavaScript truthiness of `row.key`: present and not the empty string. -/
def rowKeyTruthy (r : Row) : Bool :=
  match r.key with
  | none => false
  | some k => k ≠ ""

/-- The slice of `NodeData` used by the modal: an identifier, the row-list
`text` and the optional `path`. -/
structure NodeData where
  id : String
  text : List Row
  path : Option (List Seg)
  deriving DecidableEq, Inhabited

/-- Decimal digits of a natural number, least significant first, with
explicit fuel so the definition is structural (and hence computes in the
kernel).  Agrees with `Nat.digits 10` when the fuel is at least `n`. -/
def natDigitsAux : Nat → Nat → List Nat
  | 0, _ => []
  | fuel + 1, n => if n = 0 then [] else n % 10 :: natDigitsAux fuel (n / 10)

/-- Decimal digits of a natural number, least significant first. -/
def natDigitsLE (n : Nat) : List Nat :=
  natDigitsAux n n

/-- Decimal digits of a natural number, most significant first, as
characters (JavaScript number-to-string for naturals). -/
def natChars (n : Nat) : List Char :=
  if n = 0 then ['0'] else ((natDigitsLE n).map (fun d => Char.ofNat (48 + d))).reverse

/-- Decimal rendering of an integer (JavaScript number-to-string). -/
def intChars (i : Int) : List Char :=
  if i < 0 then '-' :: natChars i.natAbs else natChars i.natAbs

/-- Canonical decimal reading of a string: `some n` when the string is
exactly the canonical decimal form of `n` (digits only, no leading zero
except "0" itself). -/
def canonicalNat? (s : String) : Option Nat :=
  match s.data with
  | [] => none
  | c :: cs =>
    if (c :: cs).all (fun d => d.isDigit) ∧ (c = '0' → cs = []) then
      some ((c :: cs).foldl (fun a d => a * 10 + (d.toNat - 48)) 0)
    else none

/-- JavaScript array-index reading of a property key: canonical decimal
and below 2^32 - 1. -/
def arrayIndex? (s : String) : Option Nat :=
  match canonicalNat? s with
  | some n => if n < 4294967295 then some n else none
  | none => none

/-- Key under which a path segment accesses an object: numbers are coerced
to their decimal string by JavaScript property access. -/
def segKey : Seg → String
  | .num n => String.mk (natChars n)
  | .str s => s

/-- Field lookup in an object association list. -/
def getField : List (String × JVal) → String → Option JVal
  | [], _ => none
  | (k, v) :: fs, k' => if k = k' then some v else getField fs k'

/-- Field update: overwrite in place if the key exists (JavaScript keeps
the original insertion position), else append (new keys go last). -/
def setField : List (String × JVal) → String → JVal → List (String × JVal)
  | [], k', v' => [(k', v')]
  | (k, v) :: fs, k', v' =>
    if k = k' then (k, v') :: fs else (k, v) :: setField fs k' v'

/-- Element update of an array at an index, padding with `null` when the
index is beyond the length.  JavaScript leaves holes, which serialize as
null and behave like undefined in every check this source performs; the
difference is unobservable here, so holes are modelled as nulls. -/
def setIdx : List JVal → Nat → JVal → List JVal
  | [], 0, v => [v]
  | [], n + 1, v => .null :: setIdx [] n v
  | _ :: es, 0, v => v :: es
  | e :: es, n + 1, v => e :: setIdx es n v

/-- JavaScript property read `target[seg]`, `none` meaning undefined.
Reads on primitives yield undefined (never throw); numeric segments on
objects coerce to decimal string keys; string segments that are canonical
array indices read array elements. -/
def jsGet : JVal → Seg → Option JVal
  | .obj fs, seg => getField fs (segKey seg)
  | .arr es, .num n => es.get? n
  | .arr es, .str s =>
    match arrayIndex? s with
    | some n => es.get? n
    | none => none
  | _, _ => none

/-- JavaScript property write `target[seg] = v` in strict mode, `none`
meaning a thrown TypeError (write on a primitive or null).  A non-index
string property written on an array is dropped immediately: in the source
such a property is never read back before the document is serialized, and
JSON.stringify ignores it, so dropping it is observationally faithful. -/
def jsSet : JVal → Seg → JVal → Option JVal
  | .obj fs, seg, v => some (.obj (setField fs (segKey seg) v))
  | .arr es, .num n, v => some (.arr (setIdx es n v))
  | .arr es, .str s, v =>
    some (match arrayIndex? s with
      | some n => .arr (setIdx es n v)
      | none => .arr es)
  | _, _, _ => none

/-- The check `typeof target === "object" && target !== null` from the
source: true exactly for objects and arrays (JavaScript typeof is
"object" for both, and separately excludes null). -/
def isMergeableObject : JVal → Bool
  | .obj _ => true
  | .arr _ => true
  | _ => false

mutual

/-- Decidable equality on JSON values, by mutual structural recursion (the
derive handler does not support this nested inductive). -/
def decEqJ : (a b : JVal) → Decidable (a = b)
  | .null, .null => isTrue rfl
  | .bool a, .bool b =>
    match decEq a b with
    | isTrue h => isTrue (h ▸ rfl)
    | isFalse h => isFalse (fun hh => h (JVal.bool.inj hh))
  | .num a, .num b =>
    match decEq a b with
    | isTrue h => isTrue (h ▸ rfl)
    | isFalse h => isFalse (fun hh => h (JVal.num.inj hh))
  | .str a, .str b =>
    match decEq a b with
    | isTrue h => isTrue (h ▸ rfl)
    | isFalse h => isFalse (fun hh => h (JVal.str.inj hh))
  | .arr xs, .arr ys =>
    match decEqJL xs ys with
    | isTrue h => isTrue (h ▸ rfl)
    | isFalse h => isFalse (fun hh => h (JVal.arr.inj hh))
  | .obj fs, .obj gs =>
    match decEqJF fs gs with
    | isTrue h => isTrue (h ▸ rfl)
    | isFalse h => isFalse (fun hh => h (JVal.obj.inj hh))
  | .null, .bool _ => isFalse (fun h => JVal.noConfusion h)
  | .null, .num _ => isFalse (fun h => JVal.noConfusion h)
  | .null, .str _ => isFalse (fun h => JVal.noConfusion h)
  | .null, .arr _ => isFalse (fun h => JVal.noConfusion h)
  | .null, .obj _ => isFalse (fun h => JVal.noConfusion h)
  | .bool _, .null => isFalse (fun h => JVal.noConfusion h)
  | .bool _, .num _ => isFalse (fun h => JVal.noConfusion h)
  | .bool _, .str _ => isFalse (fun h => JVal.noConfusion h)
  | .bool _, .arr _ => isFalse (fun h => JVal.noConfusion h)
  | .bool _, .obj _ => isFalse (fun h => JVal.noConfusion h)
  | .num _, .null => isFalse (fun h => JVal.noConfusion h)
  | .num _, .bool _ => isFalse (fun h => JVal.noConfusion h)
  | .num _, .str _ => isFalse (fun h => JVal.noConfusion h)
  | .num _, .arr _ => isFalse (fun h => JVal.noConfusion h)
  | .num _, .obj _ => isFalse (fun h => JVal.noConfusion h)
  | .str _, .null => isFalse (fun h => JVal.noConfusion h)
  | .str _, .bool _ => isFalse (fun h => JVal.noConfusion h)
  | .str _, .num _ => isFalse (fun h => JVal.noConfusion h)
  | .str _, .arr _ => isFalse (fun h => JVal.noConfusion h)
  | .str _, .obj _ => isFalse (fun h => JVal.noConfusion h)
  | .arr _, .null => isFalse (fun h => JVal.noConfusion h)
  | .arr _, .bool _ => isFalse (fun h => JVal.noConfusion h)
  | .arr _, .num _ => isFalse (fun h => JVal.noConfusion h)
  | .arr _, .str _ => isFalse (fun h => JVal.noConfusion h)
  | .arr _, .obj _ => isFalse (fun h => JVal.noConfusion h)
  | .obj _, .null => isFalse (fun h => JVal.noConfusion h)
  | .obj _, .bool _ => isFalse (fun h => JVal.noConfusion h)
  | .obj _, .num _ => isFalse (fun h => JVal.noConfusion h)
  | .obj _, .str _ => isFalse (fun h => JVal.noConfusion h)
  | .obj _, .arr _ => isFalse (fun h => JVal.noConfusion h)

/-- Decidable equality on lists of JSON values. -/
def decEqJL : (xs ys : List JVal) → Decidable (xs = ys)
  | [], [] => isTrue rfl
  | x :: xs, y :: ys =>
    match decEqJ x y with
    | isTrue h1 =>
      match decEqJL xs ys with
      | isTrue h2 => isTrue (h1 ▸ h2 ▸ rfl)
      | isFalse h2 => isFalse (fun hh => h2 (List.cons.inj hh).2)
    | isFalse h1 => isFalse (fun hh => h1 (List.cons.inj hh).1)
  | [], _ :: _ => isFalse (fun h => List.noConfusion h)
  | _ :: _, [] => isFalse (fun h => List.noConfusion h)

/-- Decidable equality on field lists. -/
def decEqJF : (fs gs : List (String × JVal)) → Decidable (fs = gs)
  | [], [] => isTrue rfl
  | (k, v) :: fs, (k', v') :: gs =>
    match decEq k k' with
    | isTrue hk =>
      match decEqJ v v' with
      | isTrue hv =>
        match decEqJF fs gs with
        | isTrue ht => isTrue (hk ▸ hv ▸ ht ▸ rfl)
        | isFalse ht => isFalse (fun hh => ht (List.cons.inj hh).2)
      | isFalse hv =>
        isFalse (fun hh => hv (congrArg Prod.snd (List.cons.inj hh).1))
    | isFalse hk =>
      isFalse (fun hh => hk (congrArg Prod.fst (List.cons.inj hh).1))
  | [], _ :: _ => isFalse (fun h => List.noConfusion h)
  | _ :: _, [] => isFalse (fun h => List.noConfusion h)

end

instance : DecidableEq JVal := decEqJ

/-- The double-quote character (written via its code to keep character
literals simple). -/
def qChar : Char := Char.ofNat 34

/-- The backslash character. -/
def bChar : Char := Char.ofNat 92

/-- The opening-brace character. -/
def braceO : Char := Char.ofNat 123

/-- The closing-brace character. -/
def braceC : Char := Char.ofNat 125

/-- JSON whitespace accepted by JSON.parse: space, tab, newline, carriage
return. -/
def isJsonWs (c : Char) : Bool :=
  c = ' ' ∨ c = '\t' ∨ c = '\n' ∨ c = '\r'

/-- Skip leading JSON whitespace. -/
def skipWs : List Char → List Char
  | [] => []
  | c :: cs => if isJsonWs c then skipWs cs else c :: cs

/-- Value of a hexadecimal digit. -/
def hexVal? (c : Char) : Option Nat :=
  if c.isDigit then some (c.toNat - 48)
  else if 'a' ≤ c ∧ c ≤ 'f' then some (c.toNat - 87)
  else if 'A' ≤ c ∧ c ≤ 'F' then some (c.toNat - 55)
  else none

/-- Value of four hexadecimal digits. -/
def hex4? (a b c d : Char) : Option Nat :=
  match hexVal? a, hexVal? b, hexVal? c, hexVal? d with
  | some x, some y, some z, some w => some (((x * 16 + y) * 16 + z) * 16 + w)
  | _, _, _, _ => none

/-- Expect a fixed literal character sequence, returning the remainder. -/
def stripLitChars : List Char → List Char → Option (List Char)
  | [], cs => some cs
  | _ :: _, [] => none
  | p :: ps, c :: cs => if c = p then stripLitChars ps cs else none

/-- Four hexadecimal digits and the remainder. -/
def parseHex4 : List Char → Option (Nat × List Char)
  | h1 :: h2 :: h3 :: h4 :: cs => (hex4? h1 h2 h3 h4).map (fun n => (n, cs))
  | _ => none

/-- Decode a `\uXXXX` escape (after the `u`), combining surrogate pairs.
A lone surrogate is rejected: JavaScript strings could hold it, but a
Unicode scalar string cannot, and nothing in the source produces one. -/
def parseUEscape (cs : List Char) : Option (Char × List Char) :=
  match parseHex4 cs with
  | none => none
  | some (n, cs2) =>
    if 55296 ≤ n ∧ n ≤ 56319 then
      match cs2 with
      | e2 :: u2 :: cs3 =>
        if e2 = bChar ∧ u2 = 'u' then
          match parseHex4 cs3 with
          | some (m, cs4) =>
            if 56320 ≤ m ∧ m ≤ 57343 then
              some (Char.ofNat (65536 + (n - 55296) * 1024 + (m - 56320)), cs4)
            else none
          | none => none
        else none
      | _ => none
    else if 56320 ≤ n ∧ n ≤ 57343 then none
    else some (Char.ofNat n, cs2)

/-- The character denoted by a single-letter JSON escape. -/
def escCode (e : Char) : Option Char :=
  if e = qChar then some qChar
  else if e = bChar then some bChar
  else if e = '/' then some '/'
  else if e = 'n' then some '\n'
  else if e = 't' then some '\t'
  else if e = 'r' then some '\r'
  else if e = 'b' then some (Char.ofNat 8)
  else if e = 'f' then some (Char.ofNat 12)
  else none

/-- Body of a JSON string literal after the opening quote, returning the
decoded characters and the remainder after the closing quote, with fuel
(each step consumes at least one character, so the initial length
suffices).  Standard escapes and `\uXXXX` are decoded; raw control
characters are rejected as JSON.parse does. -/
def parseStrCharsF : Nat → List Char → Option (List Char × List Char)
  | 0, _ => none
  | _ + 1, [] => none
  | fuel + 1, c :: cs =>
    if c = qChar then some ([], cs)
    else if c = bChar then
      match cs with
      | [] => none
      | e :: cs2 =>
        if e = 'u' then
          match parseUEscape cs2 with
          | some (ch, cs3) => (parseStrCharsF fuel cs3).map (fun p => (ch :: p.1, p.2))
          | none => none
        else
          match escCode e with
          | some ch => (parseStrCharsF fuel cs2).map (fun p => (ch :: p.1, p.2))
          | none => none
    else if c.toNat < 32 then none
    else (parseStrCharsF fuel cs).map (fun p => (c :: p.1, p.2))

/-- Body of a JSON string literal after the opening quote. -/
def parseStrChars (cs : List Char) : Option (List Char × List Char) :=
  parseStrCharsF (cs.length + 1) cs

/-- Longest prefix of decimal digits and the remainder. -/
def takeDigits : List Char → List Char × List Char
  | [] => ([], [])
  | c :: cs =>
    if c.isDigit then
      let p := takeDigits cs
      (c :: p.1, p.2)
    else ([], c :: cs)

/-- Numeric value of a list of decimal digit characters. -/
def digitsVal (ds : List Char) : Nat :=
  ds.foldl (fun a d => a * 10 + (d.toNat - 48)) 0

/-- Parse the digits of a JSON integer (no leading zero unless the number
is exactly 0).  Returns the value and the remainder. -/
def parseNatPart : List Char → Option (Nat × List Char)
  | cs =>
    match takeDigits cs with
    | ([], _) => none
    | (d :: ds, r) =>
      if d = '0' ∧ ds ≠ [] then none
      else some (digitsVal (d :: ds), r)

/-- Fold duplicate keys of parsed object members the way JSON.parse does:
repeated assignment keeps the first position and the last value. -/
def foldInsertFields (fs : List (String × JVal)) : List (String × JVal) :=
  fs.foldl (fun acc kv => setField acc kv.1 kv.2) []

/-- Member list of a JSON object (after the opening brace and whitespace,
positioned at the first key), parameterized by the value parser.  Fuel
bounds the number of members. -/
def parseMembersWith (pv : List Char → Option (JVal × List Char)) :
    Nat → List Char → Option (List (String × JVal) × List Char)
  | 0, _ => none
  | fuel + 1, cs =>
    match cs with
    | [] => none
    | c :: rest =>
      if c = qChar then
        match parseStrChars rest with
        | none => none
        | some (kcs, r1) =>
          match skipWs r1 with
          | [] => none
          | c2 :: r2 =>
            if c2 = ':' then
              match pv r2 with
              | none => none
              | some (v, r3) =>
                match skipWs r3 with
                | [] => none
                | c3 :: r4 =>
                  if c3 = ',' then
                    match parseMembersWith pv fuel (skipWs r4) with
                    | some (fs, r5) => some ((String.mk kcs, v) :: fs, r5)
                    | none => none
                  else if c3 = braceC then some ([(String.mk kcs, v)], r4)
                  else none
            else none
      else none

/-- Element list of a JSON array (positioned at the first element),
parameterized by the value parser. -/
def parseElemsWith (pv : List Char → Option (JVal × List Char)) :
    Nat → List Char → Option (List JVal × List Char)
  | 0, _ => none
  | fuel + 1, cs =>
    match pv cs with
    | none => none
    | some (v, r) =>
      match skipWs r with
      | [] => none
      | c :: r2 =>
        if c = ',' then
          match parseElemsWith pv fuel r2 with
          | some (es, r3) => some (v :: es, r3)
          | none => none
        else if c = ']' then some ([v], r2)
        else none

/-- Parse one JSON value, consuming leading whitespace; fuel bounds the
recursion depth and the container sizes. -/
def parseVal : Nat → List Char → Option (JVal × List Char)
  | 0, _ => none
  | fuel + 1, cs =>
    match skipWs cs with
    | [] => none
    | c :: rest =>
      if c = 'n' then
        match stripLitChars ['u', 'l', 'l'] rest with
        | some r => some (.null, r)
        | none => none
      else if c = 't' then
        match stripLitChars ['r', 'u', 'e'] rest with
        | some r => some (.bool true, r)
        | none => none
      else if c = 'f' then
        match stripLitChars ['a', 'l', 's', 'e'] rest with
        | some r => some (.bool false, r)
        | none => none
      else if c = qChar then
        match parseStrChars rest with
        | some (s, r) => some (.str (String.mk s), r)
        | none => none
      else if c = braceO then
        match skipWs rest with
        | [] => none
        | c2 :: r2 =>
          if c2 = braceC then some (.obj [], r2)
          else
            match parseMembersWith (parseVal fuel) fuel (c2 :: r2) with
            | some (fs, r) => some (.obj (foldInsertFields fs), r)
            | none => none
      else if c = '[' then
        match skipWs rest with
        | [] => none
        | c2 :: r2 =>
          if c2 = ']' then some (.arr [], r2)
          else
            match parseElemsWith (parseVal fuel) fuel (c2 :: r2) with
            | some (es, r) => some (.arr es, r)
            | none => none
      else if c = '-' then
        match parseNatPart rest with
        | some (n, r) => some (.num (-(n : Int)), r)
        | none => none
      else if c.isDigit then
        match parseNatPart (c :: rest) with
        | some (n, r) => some (.num (n : Int), r)
        | none => none
      else none

/-- The model of JSON.parse: parse one value and require only whitespace
to remain. -/
def jsonParse (s : String) : Option JVal :=
  match parseVal (s.data.length + 1) s.data with
  | some (v, rest) => if skipWs rest = [] then some v else none
  | none => none

/-- Lowercase hexadecimal digit character. -/
def hexCharL (d : Nat) : Char :=
  if d < 10 then Char.ofNat (48 + d) else Char.ofNat (87 + d)

/-- Escape of one character inside a JSON string literal, exactly as
JSON.stringify escapes: quote, backslash, the five short control escapes,
`\u00xx` for remaining control characters, and everything else literal. -/
def escChar (c : Char) : List Char :=
  if c = qChar then [bChar, qChar]
  else if c = bChar then [bChar, bChar]
  else if c = Char.ofNat 8 then [bChar, 'b']
  else if c = Char.ofNat 12 then [bChar, 'f']
  else if c = '\n' then [bChar, 'n']
  else if c = '\r' then [bChar, 'r']
  else if c = '\t' then [bChar, 't']
  else if c.toNat < 32 then [bChar, 'u', '0', '0', hexCharL (c.toNat / 16), hexCharL (c.toNat % 16)]
  else [c]

/-- Escape a character list for a JSON string literal body. -/
def escList (cs : List Char) : List Char :=
  cs.foldr (fun c acc => escChar c ++ acc) []

/-- A JSON string literal for `s`, quotes included. -/
def quoteChars (s : String) : List Char :=
  qChar :: escList s.data ++ [qChar]

/-- Indentation: `n` spaces. -/
def wsChars (n : Nat) : List Char :=
  List.replicate n ' '

/-- Join character chunks with a separator. -/
def joinSep (sep : List Char) : List (List Char) → List Char
  | [] => []
  | [x] => x
  | x :: y :: xs => x ++ sep ++ joinSep sep (y :: xs)

/-- Sorted insertion by the numeric index attached to a field. -/
def insByIdx (x : (String × JVal) × Nat) :
    List ((String × JVal) × Nat) → List ((String × JVal) × Nat)
  | [] => [x]
  | y :: ys => if x.2 ≤ y.2 then x :: y :: ys else y :: insByIdx x ys

/-- JavaScript own-property enumeration order of an object: integer-like
keys first in ascending numeric order, then the remaining keys in
insertion order.  Applied wherever the source iterates or serializes an
object (Object.keys, JSON.stringify). -/
def jsOwnOrder (fs : List (String × JVal)) : List (String × JVal) :=
  let idx := fs.filterMap (fun kv =>
    match arrayIndex? kv.1 with
    | some n => some (kv, n)
    | none => none)
  (idx.foldr insByIdx []).map Prod.fst ++ fs.filter (fun kv => (arrayIndex? kv.1).isNone)

/-- Pretty serialization with two-space indentation, the model of
`JSON.stringify(v, null, 2)`.  `ind` is the current indentation and fuel
bounds the depth; `jsonStringifyPretty` supplies `sizeOf` as fuel, which
exceeds the depth of any value. -/
def stringifyP : Nat → Nat → JVal → List Char
  | 0, _, _ => []
  | fuel + 1, ind, v =>
    match v with
    | .null => "null".data
    | .bool true => "true".data
    | .bool false => "false".data
    | .num i => intChars i
    | .str s => quoteChars s
    | .arr [] => ['[', ']']
    | .arr es =>
      '[' :: '\n' ::
        (joinSep [',', '\n'] (es.map (fun e => wsChars (ind + 2) ++ stringifyP fuel (ind + 2) e))
          ++ '\n' :: wsChars ind ++ [']'])
    | .obj fs =>
      match jsOwnOrder fs with
      | [] => [braceO, braceC]
      | gs =>
        braceO :: '\n' ::
          (joinSep [',', '\n'] (gs.map (fun kv =>
              wsChars (ind + 2) ++ quoteChars kv.1 ++ ':' :: ' ' :: stringifyP fuel (ind + 2) kv.2))
            ++ '\n' :: wsChars ind ++ [braceC])

mutual

/-- Computable size of a JSON value, used as depth fuel for
serialization (always strictly larger than the nesting depth). -/
def szJ : JVal → Nat
  | .arr es => szJL es + 1
  | .obj fs => szJF fs + 1
  | _ => 1

/-- Computable size of a list of JSON values. -/
def szJL : List JVal → Nat
  | [] => 1
  | x :: xs => szJ x + szJL xs + 1

/-- Computable size of a field list. -/
def szJF : List (String × JVal) → Nat
  | [] => 1
  | kv :: fs => szJ kv.2 + szJF fs + 1

end

/-- The model of `JSON.stringify(v, null, 2)` at top level. -/
def jsonStringifyPretty (v : JVal) : String :=
  String.mk (stringifyP (szJ v) 0 v)

/-- Compact serialization of one path segment as a JSON array element
(model of what JSON.stringify does to a path entry). -/
def segJChars : Seg → List Char
  | .num n => natChars n
  | .str s => quoteChars s

/-- The model of `JSON.stringify(path)`: compact, no whitespace. -/
def pathToJsonString (p : List Seg) : String :=
  String.mk ('[' :: joinSep [','] (p.map segJChars) ++ [']'])

/-- Projection of a row-list onto the object the source builds: rows whose
type is neither "array" nor "object" and whose key is truthy are assigned
in order (`obj[row.key] = row.value`). -/
def rowsToObj (rows : List Row) : List (String × JVal) :=
  rows.foldl (fun acc r =>
    if r.type ≠ "array" ∧ r.type ≠ "object" ∧ rowKeyTruthy r then
      setField acc (r.key.getD "") (.str r.value)
    else acc) []

/-- The source Normalizer `normalizeNodeData`: "\x7b\x7d" for an empty
row-list, the bare value text for a single unkeyed row, otherwise the
pretty-printed projection object. -/
def normalizeNodeData (nodeRows : List Row) : String :=
  match nodeRows with
  | [] => String.mk [braceO, braceC]
  | [r] =>
    if ¬ rowKeyTruthy r then r.value
    else jsonStringifyPretty (.obj (rowsToObj [r]))
  | rs => jsonStringifyPretty (.obj (rowsToObj rs))

/-- Display rendering of one path segment in the source
`jsonPathToString`: numbers bare, strings wrapped in plain double quotes
with no escaping (template literal interpolation). -/
def segDisplay : Seg → List Char
  | .num n => natChars n
  | .str s => qChar :: s.data ++ [qChar]

/-- The source Path Formatter `jsonPathToString`. -/
def jsonPathToString (path : Option (List Seg)) : String :=
  match path with
  | none => "$"
  | some [] => "$"
  | some p => String.mk ('$' :: '[' :: joinSep [']', '['] (p.map segDisplay) ++ [']'])

/-- The intermediate container the navigation loop of `setValueAtPath`
continues into at one segment: a numeric segment keeps an existing array
and otherwise installs an empty array; a key segment keeps any existing
value of object type (object or array, per typeof) and otherwise installs
an empty object. -/
def vivChild (cur : JVal) (seg : Seg) : JVal :=
  match seg, jsGet cur seg with
  | .num _, some (.arr es) => .arr es
  | .num _, _ => .arr []
  | .str _, some c => if isMergeableObject c then c else .obj []
  | .str _, none => .obj []

/-- The navigation-and-write loop of the source `setValueAtPath` on a
non-empty path, translated functionally: the source mutates the spine in
place on a tree, which equals rebuilding the spine by writing the updated
child back at each level.  `none` models the TypeError thrown in strict
mode when the write target is a primitive (only possible at the root: every
deeper target is a container by construction). -/
def setPathAux : JVal → List Seg → JVal → Option JVal
  | _, [], v => some v
  | cur, [last], v => jsSet cur last v
  | cur, seg :: rest, v =>
    match setPathAux (vivChild cur seg) rest v with
    | some child => jsSet cur seg child
    | none => none

/-- The source `setValueAtPath`: an absent or empty path returns the value
itself (root replacement), otherwise navigate and write. -/
def setValueAtPath (obj : JVal) (path : Option (List Seg)) (value : JVal) : Option JVal :=
  match path with
  | none => some value
  | some [] => some value
  | some ps => setPathAux obj ps value

/-- One step of the merge-branch navigation `target = target?.[seg]`:
optional chaining never throws, an undefined result stays undefined. -/
def jsGetOpt : Option JVal → Seg → Option JVal
  | none, _ => none
  | some v, seg => jsGet v seg

/-- The merge-branch navigation over the whole path (the source breaks out
of the loop at undefined, which the fold reproduces since undefined
propagates). -/
def navGetFold (obj : JVal) (p : List Seg) : Option JVal :=
  p.foldl jsGetOpt (some obj)

/-- Functional image of the in-place merge: replace the value reached by
`navGetFold` (same access steps) with `v`.  Defined only along access
paths that exist; when a step is missing the document is returned
unchanged (that case is never reached under the hypotheses in use). -/
def navSet (cur : JVal) (p : List Seg) (v : JVal) : JVal :=
  match p with
  | [] => v
  | seg :: rest =>
    match jsGet cur seg with
    | some child => (jsSet cur seg (navSet child rest v)).getD cur
    | none => cur

/-- The merge loop `Object.keys(parsed).forEach(key => target[key] =
parsed[key])`.  Object.keys of null throws (`none`); of an object it
yields the keys; of an array or a string it yields the element indices as
decimal strings; of other primitives it is empty.  Key enumeration order
of a parsed object is its own-property order; the written keys are
pairwise distinct (JSON.parse collapses duplicates) and land in distinct
slots of `target`, so the folds below, which use insertion order, produce
the same result. -/
def mergeInto (target : JVal) (parsed : JVal) : Option JVal :=
  match parsed with
  | .null => none
  | .obj pfs => some (pfs.foldl (fun t kv => (jsSet t (.str kv.1) kv.2).getD t) target)
  | .arr es => some ((es.enum).foldl (fun t ie =>
      (jsSet t (.str (String.mk (natChars ie.1))) ie.2).getD t) target)
  | .str s => some ((s.data.enum).foldl (fun t ic =>
      (jsSet t (.str (String.mk (natChars ic.1))) (.str (String.mk [ic.2]))).getD t) target)
  | _ => some target

/-- The leaf test of `handleSave`: `nodeData.text.length === 1 &&
!nodeData.text[0].key`. -/
def isLeafShape (rows : List Row) : Bool :=
  match rows with
  | [r] => ¬ rowKeyTruthy r
  | _ => false

/-- The branch logic of `handleSave` after both parses, operating on the
already-parsed document `originalObj` and edited value `parsed`. -/
def applyNodeLogic (originalObj parsed : JVal) (node : Option NodeData) : Option JVal :=
  match node with
  | some nd =>
    if isLeafShape nd.text then
      setValueAtPath originalObj nd.path parsed
    else
      match nd.path with
      | some p =>
        (match navGetFold originalObj p with
        | some target =>
          if isMergeableObject target then
            match mergeInto target parsed with
            | some merged => setValueAtPath (navSet originalObj p merged) (some p) merged
            | none => none
          else setValueAtPath originalObj (some p) parsed
        | none => setValueAtPath originalObj (some p) parsed)
      | none => some parsed
  | none => some parsed

/-- The value `handleSave` passes to `setJson` (serialized), or `none`
when the attempt throws: a draft that fails to parse, a TypeError from a
primitive write, or Object.keys(null).  An unparseable stored document is
replaced by the parsed draft before the branch logic runs. -/
def saveValue (storedText : String) (node : Option NodeData) (draft : String) : Option JVal :=
  match jsonParse draft with
  | none => none
  | some parsed =>
    applyNodeLogic ((jsonParse storedText).getD parsed) parsed node

/-- The observable outcome of the source `handleSave` on the document
store: the stored text afterwards, and whether the error state was set
(the catch branch).  On error the store is untouched. -/
def handleSave (storedText : String) (node : Option NodeData) (draft : String) :
    String × Bool :=
  match saveValue storedText node draft with
  | some v => (jsonStringifyPretty v, false)
  | none => (storedText, true)

/-- The re-selection lookup of `handleSave`: find the first rebuilt node
whose path serializes (via JSON.stringify, missing path defaulting to the
empty path) to the same string as the target path. -/
def relocateNode (nodes : List NodeData) (target : Option (List Seg)) : Option NodeData :=
  nodes.find? (fun n => pathToJsonString (n.path.getD []) == pathToJsonString (target.getD []))

/-- Modelled from the spec, for claim C9: the locator format described
there, built segment by segment: every segment is wrapped in its own
brackets, string segments double-quoted, integer segments bare, and the
empty path renders as the dollar sign alone. -/
def specSegChars : Seg → List Char
  | .num n => natChars n
  | .str k => qChar :: k.data ++ [qChar]

/-- Modelled from the spec, for claim C9: the locator string built segment
by segment, every segment wrapped in its own bracket pair. -/
def specPathString (p : List Seg) : String :=
  String.mk ('$' :: (p.map (fun s => '[' :: specSegChars s ++ [']'])).flatten)

/-- Modelled from the spec, for claim C5: the intermediate container the
claimed navigation continues into, where only a genuine object is kept at
a key segment (the claim reads "object" exclusively, as arrays are named
separately throughout the spec). -/
def specVivChild (cur : JVal) (seg : Seg) : JVal :=
  match seg, jsGet cur seg with
  | .num _, some (.arr es) => .arr es
  | .num _, _ => .arr []
  | .str _, some (.obj fs) => .obj fs
  | .str _, _ => .obj []

/-- Modelled from the spec, for claim C5: total navigation-and-write with
the claimed auto-vivification rule; the final write is the same property
write the code performs. -/
def specSetPath : JVal → List Seg → JVal → JVal
  | _, [], v => v
  | cur, [last], v => (jsSet cur last v).getD cur
  | cur, seg :: rest, v =>
    (jsSet cur seg (specSetPath (specVivChild cur seg) rest v)).getD cur

/-- The walks on which the claimed vivification rule and the code agree:
no intermediate key segment meets an existing array. -/
def vivOk : JVal → List Seg → Bool
  | _, [] => true
  | _, [_] => true
  | cur, seg :: rest =>
    match seg, jsGet cur seg with
    | .str _, some (.arr _) => false
    | _, _ => vivOk (vivChild cur seg) rest

/-- Type-matched navigation: every intermediate numeric segment meets an
array and every intermediate key segment meets an object.  On such spines
the write-back of the merge branch revisits exactly the positions the
read navigation visited. -/
def spineOk : JVal → List Seg → Bool
  | _, [] => true
  | _, [_] => true
  | cur, seg :: rest =>
    match seg, jsGet cur seg with
    | .num _, some (.arr es) => spineOk (.arr es) rest
    | .str _, some (.obj fs) => spineOk (.obj fs) rest
    | _, _ => false

/-- Merge of parsed fields into existing object fields: every parsed key
is set (overwriting in place or appending), keys not mentioned keep their
value and position. -/
def mergeObjFields (tfs pfs : List (String × JVal)) : List (String × JVal) :=
  pfs.foldl (fun fs kv => setField fs kv.1 kv.2) tfs


/-- Pairs of key text and value text, viewed as a flat string-valued
object (the shape the Normalizer always serializes). -/
def toObj (l : List (String × String)) : List (String × JVal) :=
  l.map (fun kv => (kv.1, .str kv.2))

/-- Text of a string value (auxiliary projection for flat objects). -/
def valText : JVal → String
  | .str s => s
  | _ => ""

/-- Forget the `str` wrappers of a flat object. -/
def stripObj (fs : List (String × JVal)) : List (String × String) :=
  fs.map (fun kv => (kv.1, valText kv.2))

/-- Character stream of the pretty-printed members of a flat string
object, starting at the first key and including the closing brace,
followed by `rest`. -/
def membersAt : List (String × String) → List Char → List Char
  | [], rest => rest
  | [(k, v)], rest =>
    quoteChars k ++ ':' :: ' ' :: (quoteChars v ++ '\n' :: braceC :: rest)
  | (k, v) :: l, rest =>
    quoteChars k ++ ':' :: ' ' :: (quoteChars v ++ ',' :: '\n' :: (wsChars 2 ++ membersAt l rest))

/-- Full pretty-printed text of a non-empty flat string object followed
by `rest`. -/
def flatObjChars (l : List (String × String)) (rest : List Char) : List Char :=
  braceO :: '\n' :: (wsChars 2 ++ membersAt l rest)

/-- Decoder for one serialized path segment (used to establish that the
compact path serialization is injective). -/
def decodeSeg : List Char → Option (Seg × List Char)
  | [] => none
  | c :: cs =>
    if c = qChar then (parseStrChars cs).map (fun p => (Seg.str (String.mk p.1), p.2))
    else if c.isDigit then
      match parseNatPart (c :: cs) with
      | some (n, r) => some (.num n, r)
      | none => none
    else none

/-- Decoder for a comma-separated serialized segment list up to the
closing bracket. -/
def decodeSegsAux : Nat → List Char → Option (List Seg × List Char)
  | 0, _ => none
  | fuel + 1, cs =>
    match decodeSeg cs with
    | none => none
    | some (s, r) =>
      match r with
      | ',' :: r2 => (decodeSegsAux fuel r2).map (fun p => (s :: p.1, p.2))
      | ']' :: r2 => some ([s], r2)
      | _ => none

/-- Decoder for a whole serialized path. -/
def decodePath (s : String) : Option (List Seg) :=
  match s.data with
  | '[' :: cs =>
    if cs = [']'] then some []
    else
      match decodeSegsAux cs.length cs with
      | some (p, []) => some p
      | _ => none
  | _ => none

/-! ## Theorems -/

theorem segDisplay_eq_specSegChars (s : Seg) : segDisplay s = specSegChars s := by
  cases s <;> rfl

theorem pathJoin_aux (s : Seg) (ss : List Seg) :
    '[' :: joinSep [']', '['] ((s :: ss).map segDisplay) ++ [']'] =
      ((s :: ss).map (fun t => '[' :: specSegChars t ++ [']'])).flatten := by
  induction ss generalizing s with
  | nil => simp [joinSep, segDisplay_eq_specSegChars]
  | cons s' ss' ih =>
    have h := ih s'
    simp only [List.map_cons, List.flatten_cons, joinSep] at h ⊢
    rw [← h]
    simp [segDisplay_eq_specSegChars, List.append_assoc]

/-- C9: for every path the Path Formatter produces the locator string
whose segments are each bracketed, string segments double-quoted and
integer segments bare, and an empty or absent path renders as the dollar
sign alone. -/
theorem claimC9 :
    (∀ p : List Seg, jsonPathToString (some p) = specPathString p) ∧
      jsonPathToString none = "$" := by
  constructor
  · intro p
    cases p with
    | nil => rfl
    | cons s ss =>
      show String.mk _ = String.mk _
      exact congrArg String.mk (congrArg (List.cons '$') (pathJoin_aux s ss))
  · rfl

/-- C1: whenever the edited draft fails to parse as JSON, the save
attempt reports the error and the stored document text is left completely
unchanged. -/
theorem claimC1 : ∀ (storedText : String) (node : Option NodeData) (draft : String),
    jsonParse draft = none →
    handleSave storedText node draft = (storedText, true) := by
  intro st node d h
  simp [handleSave, saveValue, h]

theorem claimC1_witness :
    jsonParse "\x7bbad" = none ∧
      handleSave "\x7b\"a\": 1\x7d"
          (some ⟨"n1", [⟨none, "1", "number"⟩], some [.str "a"]⟩) "\x7bbad" =
        ("\x7b\"a\": 1\x7d", true) :=
  ⟨rfl, claimC1 _ _ _ rfl⟩

/-- C6: a row-list consisting of exactly one unkeyed row whose text
denotes the value `v` normalizes to text that parses back to `v`. -/
theorem claimC6 : ∀ (r : Row) (v : JVal),
    rowKeyTruthy r = false → jsonParse r.value = some v →
    jsonParse (normalizeNodeData [r]) = some v := by
  intro r v hk hv
  simp [normalizeNodeData, hk, hv]

theorem claimC6_witness :
    rowKeyTruthy ⟨none, "\"hi\"", "string"⟩ = false ∧
      jsonParse "\"hi\"" = some (.str "hi") ∧
      jsonParse (normalizeNodeData [⟨none, "\"hi\"", "string"⟩]) = some (.str "hi") :=
  ⟨rfl, rfl, claimC6 _ _ rfl rfl⟩

/-- C10 counterexample: the stored text does not parse and the draft
does, yet the operation reports an error (the substituted scalar document
makes the leaf write throw), contradicting the claim that no error is
raised in this situation. -/
theorem claimC10_counterexample :
    jsonParse "x" = none ∧ jsonParse "5" = some (.num 5) ∧
      handleSave "x" (some ⟨"n", [⟨none, "1", "number"⟩], some [.str "a"]⟩) "5" =
        ("x", true) :=
  ⟨rfl, rfl, rfl⟩

/-- C10 amended: when the stored text does not parse and the draft does,
the parsed draft is substituted for the whole document before the normal
path logic runs, so the outcome is exactly as if the stored text had been
the draft itself; the unparseability of the stored text raises no error by
itself, though the subsequent path logic still can. -/
theorem claimC10 : ∀ (storedText draft : String) (node : Option NodeData),
    jsonParse storedText = none → (jsonParse draft).isSome →
    saveValue storedText node draft = saveValue draft node draft := by
  intro st d node hs hd
  match hdd : jsonParse d with
  | some parsed => simp [saveValue, hs, hdd]
  | none => rw [hdd] at hd; simp at hd

theorem claimC10_witness :
    saveValue "\x7bbad" (some ⟨"n", [⟨none, "1", "number"⟩], some [.str "a"]⟩)
        "\x7b\"q\": 7\x7d" =
      saveValue "\x7b\"q\": 7\x7d" (some ⟨"n", [⟨none, "1", "number"⟩], some [.str "a"]⟩)
        "\x7b\"q\": 7\x7d" :=
  claimC10 _ _ _ rfl rfl

/-- C3 counterexample: a container-node edit on the empty path merges
into the root object instead of replacing it, refuting root replacement
"regardless of whether the node is a scalar leaf or a container". -/
theorem claimC3_counterexample :
    saveValue "\x7b\"a\": 1\x7d" (some ⟨"n", [⟨some "a", "1", "number"⟩], some []⟩)
        "\x7b\"b\": 2\x7d" =
      some (.obj [("a", .num 1), ("b", .num 2)]) ∧
    some (JVal.obj [("a", .num 1), ("b", .num 2)]) ≠ some (JVal.obj [("b", .num 2)]) :=
  ⟨rfl, by decide⟩

/-- C3 amended: an empty-path edit replaces the whole document with the
parsed value when the node is a scalar leaf, and also when the node is a
container but the root is not of object type; a container edit over an
object-typed root instead merges the parsed value into the root. -/
theorem claimC3 : ∀ (stored draft : String) (nd : NodeData) (doc parsed : JVal),
    jsonParse stored = some doc → jsonParse draft = some parsed → nd.path = some [] →
    (isLeafShape nd.text = true → saveValue stored (some nd) draft = some parsed) ∧
    (isLeafShape nd.text = false → isMergeableObject doc = true →
      saveValue stored (some nd) draft = mergeInto doc parsed) ∧
    (isLeafShape nd.text = false → isMergeableObject doc = false →
      saveValue stored (some nd) draft = some parsed) := by
  intro st d nd doc parsed hs hd hp
  refine ⟨?_, ?_, ?_⟩
  · intro hleaf
    simp [saveValue, hs, hd, applyNodeLogic, hleaf, hp, setValueAtPath]
  · intro hleaf hm
    simp only [saveValue, hs, hd, applyNodeLogic, hleaf, hp, Option.getD_some]
    simp only [navGetFold, List.foldl_nil, hm, if_true]
    cases hmi : mergeInto doc parsed with
    | some merged => simp [navSet, setValueAtPath]
    | none => simp
  · intro hleaf hm
    simp [saveValue, hs, hd, applyNodeLogic, hleaf, hp, navGetFold, hm, setValueAtPath]

theorem claimC3_witness :
    saveValue "\x7b\"a\": 1\x7d" (some ⟨"n", [⟨some "a", "1", "number"⟩], some []⟩)
        "\x7b\"b\": 2\x7d" =
      mergeInto (.obj [("a", .num 1)]) (.obj [("b", .num 2)]) :=
  (claimC3 "\x7b\"a\": 1\x7d" "\x7b\"b\": 2\x7d"
    ⟨"n", [⟨some "a", "1", "number"⟩], some []⟩
    (.obj [("a", .num 1)]) (.obj [("b", .num 2)]) rfl rfl rfl).2.1 rfl rfl

/-- C4 counterexample: with an array at the full path, a container edit
takes the merge branch (typeof of an array is "object"), writing the
parsed keys onto the array, instead of the claimed leaf-replace fallback
that would set the parsed object verbatim. -/
theorem claimC4_counterexample :
    saveValue "\x7b\"a\": [1,2]\x7d" (some ⟨"n", [⟨some "b", "1", "number"⟩], some [.str "a"]⟩)
        "\x7b\"0\": 9\x7d" =
      some (.obj [("a", .arr [.num 9, .num 2])]) ∧
    setValueAtPath (.obj [("a", .arr [.num 1, .num 2])]) (some [.str "a"])
        (.obj [("0", .num 9)]) =
      some (.obj [("a", .obj [("0", .num 9)])]) ∧
    some (JVal.obj [("a", .arr [.num 9, .num 2])]) ≠
      some (JVal.obj [("a", .obj [("0", .num 9)])]) :=
  ⟨rfl, rfl, by decide⟩

/-- C4 amended: the leaf-replace fallback triggers exactly when the value
reached at the full path is undefined, null, or a primitive; an array at
the full path is of JS object type and takes the merge branch instead. -/
theorem claimC4 : ∀ (stored draft : String) (nd : NodeData) (doc parsed : JVal)
    (p : List Seg),
    jsonParse stored = some doc → jsonParse draft = some parsed →
    isLeafShape nd.text = false → nd.path = some p →
    (∀ t, navGetFold doc p = some t → isMergeableObject t = false) →
    saveValue stored (some nd) draft = setValueAtPath doc (some p) parsed := by
  intro st d nd doc parsed p hs hd hleaf hp hT
  simp only [saveValue, hs, hd, applyNodeLogic, hleaf, hp, Option.getD_some,
    Bool.false_eq_true, if_false]
  cases hnav : navGetFold doc p with
  | none => simp
  | some t => simp [hT t hnav]

theorem claimC4_witness :
    saveValue "\x7b\"a\": 1\x7d" (some ⟨"n", [⟨some "b", "1", "number"⟩], some [.str "z"]⟩)
        "\x7b\"b\": 5\x7d" =
      setValueAtPath (.obj [("a", .num 1)]) (some [.str "z"]) (.obj [("b", .num 5)]) :=
  claimC4 "\x7b\"a\": 1\x7d" "\x7b\"b\": 5\x7d"
    ⟨"n", [⟨some "b", "1", "number"⟩], some [.str "z"]⟩
    (.obj [("a", .num 1)]) (.obj [("b", .num 5)]) [.str "z"] rfl rfl rfl rfl
    (fun _ h => Option.noConfusion h)

theorem jsSet_isSome_of_mergeable (cur : JVal) (seg : Seg) (v : JVal)
    (h : isMergeableObject cur = true) : (jsSet cur seg v).isSome := by
  cases cur with
  | obj fs => cases seg <;> simp [jsSet]
  | arr es => cases seg <;> simp [jsSet]
  | null => simp [isMergeableObject] at h
  | bool b => simp [isMergeableObject] at h
  | num i => simp [isMergeableObject] at h
  | str t => simp [isMergeableObject] at h

theorem vivChild_mergeable (cur : JVal) (seg : Seg) :
    isMergeableObject (vivChild cur seg) = true := by
  cases seg with
  | num n =>
    simp only [vivChild]
    rcases h : jsGet cur (.num n) with _ | w
    · rfl
    · cases w <;> rfl
  | str s =>
    simp only [vivChild]
    rcases h : jsGet cur (.str s) with _ | w
    · rfl
    · cases w <;> simp [isMergeableObject]

/-- C5 counterexample: an existing array at a key segment is not replaced
by an empty object (typeof of an array is "object"); the write of the
final key lands on the array and is dropped, leaving the document
unchanged, where the claimed vivification would produce a fresh object. -/
theorem claimC5_counterexample :
    setValueAtPath (.obj [("x", .arr [.num 1])]) (some [.str "x", .str "y"]) (.num 1) =
      some (.obj [("x", .arr [.num 1])]) ∧
    specSetPath (.obj [("x", .arr [.num 1])]) [.str "x", .str "y"] (.num 1) =
      .obj [("x", .obj [("y", .num 1)])] ∧
    some (JVal.obj [("x", .arr [.num 1])]) ≠
      some (JVal.obj [("x", .obj [("y", .num 1)])]) :=
  ⟨rfl, rfl, by decide⟩

/-- C5 amended: on walks where the root is a container and no
intermediate key segment meets an existing array, the navigation of
`setValueAtPath` creates missing intermediate containers exactly as the
claim describes (numeric segment: empty array unless an array is present;
key segment: empty object unless an object is present). -/
theorem claimC5 : ∀ (path : List Seg) (cur v : JVal),
    isMergeableObject cur = true → vivOk cur path = true →
    setValueAtPath cur (some path) v = some (specSetPath cur path v) := by
  intro path
  induction path with
  | nil => intro cur v _ _; rfl
  | cons seg rest ih =>
    intro cur v hcur hviv
    cases rest with
    | nil =>
      have hs := jsSet_isSome_of_mergeable cur seg v hcur
      rcases ho : jsSet cur seg v with _ | w
      · rw [ho] at hs; simp at hs
      · simp [setValueAtPath, setPathAux, specSetPath, ho]
    | cons r2 rs =>
      have hvc : vivChild cur seg = specVivChild cur seg := by
        cases seg with
        | num n =>
          simp only [vivChild, specVivChild]
          rcases h : jsGet cur (.num n) with _ | w
          · rfl
          · cases w <;> rfl
        | str s =>
          simp only [vivOk] at hviv
          simp only [vivChild, specVivChild]
          rcases h : jsGet cur (.str s) with _ | w
          · rfl
          · cases w with
            | arr es => rw [h] at hviv; simp at hviv
            | null => rfl
            | bool b => rfl
            | num i => rfl
            | str t => rfl
            | obj fs => simp [isMergeableObject]
      have hviv' : vivOk (vivChild cur seg) (r2 :: rs) = true := by
        simp only [vivOk] at hviv
        rcases h : jsGet cur seg with _ | w
        · rw [h] at hviv
          cases seg <;> simpa using hviv
        · rw [h] at hviv
          cases seg with
          | num n => simpa using hviv
          | str s =>
            cases w <;> simp_all
      have hrec := ih (vivChild cur seg) v (vivChild_mergeable cur seg) hviv'
      simp only [setValueAtPath] at hrec
      rw [hvc] at hrec
      have hs := jsSet_isSome_of_mergeable cur seg
        (specSetPath (specVivChild cur seg) (r2 :: rs) v) hcur
      rcases ho : jsSet cur seg (specSetPath (specVivChild cur seg) (r2 :: rs) v) with _ | w
      · rw [ho] at hs; simp at hs
      · simp [setValueAtPath, setPathAux, hrec, hvc, specSetPath, ho]

theorem claimC5_witness :
    setValueAtPath (.obj []) (some [.str "x", .str "y"]) (.num 1) =
      some (.obj [("x", .obj [("y", .num 1)])]) :=
  (claimC5 [.str "x", .str "y"] (.obj []) (.num 1) rfl rfl).trans rfl

theorem getField_setField_same (fs : List (String × JVal)) (k : String) (v : JVal) :
    getField (setField fs k v) k = some v := by
  induction fs with
  | nil => simp [setField, getField]
  | cons kv fs ih =>
    obtain ⟨k1, v1⟩ := kv
    by_cases h : k1 = k
    · simp [setField, getField, h]
    · simp [setField, getField, h, ih]

theorem getField_setField_other (fs : List (String × JVal)) (k k2 : String) (v : JVal)
    (h : k ≠ k2) : getField (setField fs k v) k2 = getField fs k2 := by
  induction fs with
  | nil => simp [setField, getField, h]
  | cons kv fs ih =>
    obtain ⟨k1, v1⟩ := kv
    by_cases h1 : k1 = k
    · subst h1; simp [setField, getField, h]
    · simp [setField, getField, h1, ih]

theorem setField_setField_same (fs : List (String × JVal)) (k : String) (v : JVal) :
    setField (setField fs k v) k v = setField fs k v := by
  induction fs with
  | nil => simp [setField]
  | cons kv fs ih =>
    obtain ⟨k1, v1⟩ := kv
    by_cases h : k1 = k
    · simp [setField, h]
    · simp [setField, h, ih]

theorem setIdx_get_same (n : Nat) (es : List JVal) (v : JVal) :
    (setIdx es n v)[n]? = some v := by
  induction n generalizing es with
  | zero => cases es <;> simp [setIdx]
  | succ n ih => cases es <;> simp [setIdx, ih]

theorem setIdx_setIdx_same (n : Nat) (es : List JVal) (v : JVal) :
    setIdx (setIdx es n v) n v = setIdx es n v := by
  induction n generalizing es with
  | zero => cases es <;> simp [setIdx]
  | succ n ih => cases es <;> simp [setIdx, ih]

theorem jsGet_some_mergeable (cur : JVal) (seg : Seg) (t : JVal)
    (h : jsGet cur seg = some t) : isMergeableObject cur = true := by
  cases cur <;> first | rfl | simp [jsGet] at h

theorem jsSet_jsGet_same (cur : JVal) (seg : Seg) (t0 v d : JVal)
    (hg : jsGet cur seg = some t0) (hs : jsSet cur seg v = some d) :
    jsGet d seg = some v := by
  cases cur with
  | obj fs =>
    simp only [jsSet, Option.some.injEq] at hs
    subst hs
    simp [jsGet, getField_setField_same]
  | arr es =>
    cases seg with
    | num n =>
      simp only [jsSet, Option.some.injEq] at hs
      subst hs
      simp [jsGet, setIdx_get_same]
    | str s =>
      rcases hai : arrayIndex? s with _ | n
      · simp [jsGet, hai] at hg
      · simp only [jsSet, hai, Option.some.injEq] at hs
        subst hs
        simp [jsGet, hai, setIdx_get_same]
  | null => simp [jsGet] at hg
  | bool b => simp [jsGet] at hg
  | num i => simp [jsGet] at hg
  | str t1 => simp [jsGet] at hg

theorem jsSet_jsSet_same (x : JVal) (seg : Seg) (v y : JVal)
    (h : jsSet x seg v = some y) : jsSet y seg v = some y := by
  cases x with
  | obj fs =>
    simp only [jsSet, Option.some.injEq] at h
    subst h
    simp [jsSet, setField_setField_same]
  | arr es =>
    cases seg with
    | num n =>
      simp only [jsSet, Option.some.injEq] at h
      subst h
      simp [jsSet, setIdx_setIdx_same]
    | str s =>
      rcases hai : arrayIndex? s with _ | n
      · simp only [jsSet, hai, Option.some.injEq] at h
        subst h
        simp [jsSet, hai]
      · simp only [jsSet, hai, Option.some.injEq] at h
        subst h
        simp [jsSet, hai, setIdx_setIdx_same]
  | null => simp [jsSet] at h
  | bool b => simp [jsSet] at h
  | num i => simp [jsSet] at h
  | str t => simp [jsSet] at h

theorem navSet_arr_shape (es : List JVal) (r : Seg) (rs : List Seg) (M : JVal) :
    ∃ es2, navSet (.arr es) (r :: rs) M = .arr es2 := by
  simp only [navSet]
  rcases h : jsGet (.arr es) r with _ | child
  · exact ⟨es, rfl⟩
  · cases r with
    | num n => exact ⟨_, rfl⟩
    | str s =>
      rcases hai : arrayIndex? s with _ | n
      · exact ⟨es, by simp [jsSet, hai]⟩
      · refine ⟨setIdx es n (navSet child rs M), ?_⟩
        simp [jsSet, hai]

theorem navSet_obj_shape (fs : List (String × JVal)) (r : Seg) (rs : List Seg) (M : JVal) :
    ∃ fs2, navSet (.obj fs) (r :: rs) M = .obj fs2 := by
  simp only [navSet]
  rcases h : jsGet (.obj fs) r with _ | child
  · exact ⟨fs, rfl⟩
  · refine ⟨setField fs (segKey r) (navSet child rs M), ?_⟩
    simp [jsSet]

/-- After the in-place merge, the write-back pass of `setValueAtPath` over
a type-matched spine revisits exactly the updated positions and leaves the
document unchanged. -/
theorem navWriteback (p : List Seg) : ∀ (cur t M : JVal),
    spineOk cur p = true → navGetFold cur p = some t →
    setValueAtPath (navSet cur p M) (some p) M = some (navSet cur p M) := by
  induction p with
  | nil => intro cur t M _ _; rfl
  | cons seg rest ih =>
    intro cur t M hspine hnav
    cases rest with
    | nil =>
      have hg : jsGet cur seg = some t := by
        simpa [navGetFold, jsGetOpt] using hnav
      have hcur := jsGet_some_mergeable cur seg t hg
      have hsome := jsSet_isSome_of_mergeable cur seg M hcur
      rcases hy : jsSet cur seg M with _ | y
      · rw [hy] at hsome; simp at hsome
      · have hnsv : navSet cur [seg] M = y := by
          simp [navSet, hg, hy]
        rw [hnsv]
        show setPathAux y [seg] M = some y
        simpa [setPathAux] using jsSet_jsSet_same cur seg M y hy
    | cons r2 rs =>
      have hnav' : navGetFold cur (seg :: r2 :: rs) = (r2 :: rs).foldl jsGetOpt (jsGet cur seg) := by
        simp [navGetFold, jsGetOpt]
      cases seg with
      | num n =>
        rcases hg : jsGet cur (.num n) with _ | child
        · simp only [spineOk, hg] at hspine; exact Bool.noConfusion hspine
        · cases child with
          | arr es =>
            have hsp2 : spineOk (.arr es) (r2 :: rs) = true := by
              simpa [spineOk, hg] using hspine
            have hnav2 : navGetFold (.arr es) (r2 :: rs) = some t := by
              rw [hnav', hg] at hnav
              simpa [navGetFold] using hnav
            have hcur := jsGet_some_mergeable cur (.num n) _ hg
            obtain ⟨es2, hC⟩ := navSet_arr_shape es r2 rs M
            have hsome := jsSet_isSome_of_mergeable cur (.num n)
              (navSet (.arr es) (r2 :: rs) M) hcur
            rcases hD : jsSet cur (.num n) (navSet (.arr es) (r2 :: rs) M) with _ | D
            · rw [hD] at hsome; simp at hsome
            · have hunf : navSet cur (.num n :: r2 :: rs) M =
                  (jsSet cur (.num n) (navSet (.arr es) (r2 :: rs) M)).getD cur := by
                rw [navSet, hg]
              have hnsv : navSet cur (.num n :: r2 :: rs) M = D := by
                rw [hunf, hD]; rfl
              rw [hnsv]
              have hgD : jsGet D (.num n) = some (navSet (.arr es) (r2 :: rs) M) :=
                jsSet_jsGet_same cur (.num n) _ _ _ hg hD
              have hvc : vivChild D (.num n) = navSet (.arr es) (r2 :: rs) M := by
                simp [vivChild, hgD, hC]
              have hih := ih (.arr es) t M hsp2 hnav2
              simp only [setValueAtPath] at hih
              show setPathAux D (.num n :: r2 :: rs) M = some D
              simp only [setPathAux, hvc, hih]
              exact jsSet_jsSet_same cur (.num n) _ D hD
          | null => simp only [spineOk, hg] at hspine; exact Bool.noConfusion hspine
          | bool b => simp only [spineOk, hg] at hspine; exact Bool.noConfusion hspine
          | num i => simp only [spineOk, hg] at hspine; exact Bool.noConfusion hspine
          | str s1 => simp only [spineOk, hg] at hspine; exact Bool.noConfusion hspine
          | obj fs => simp only [spineOk, hg] at hspine; exact Bool.noConfusion hspine
      | str s =>
        rcases hg : jsGet cur (.str s) with _ | child
        · simp only [spineOk, hg] at hspine; exact Bool.noConfusion hspine
        · cases child with
          | obj fs =>
            have hsp2 : spineOk (.obj fs) (r2 :: rs) = true := by
              simpa [spineOk, hg] using hspine
            have hnav2 : navGetFold (.obj fs) (r2 :: rs) = some t := by
              rw [hnav', hg] at hnav
              simpa [navGetFold] using hnav
            have hcur := jsGet_some_mergeable cur (.str s) _ hg
            obtain ⟨fs2, hC⟩ := navSet_obj_shape fs r2 rs M
            have hsome := jsSet_isSome_of_mergeable cur (.str s)
              (navSet (.obj fs) (r2 :: rs) M) hcur
            rcases hD : jsSet cur (.str s) (navSet (.obj fs) (r2 :: rs) M) with _ | D
            · rw [hD] at hsome; simp at hsome
            · have hunf : navSet cur (.str s :: r2 :: rs) M =
                  (jsSet cur (.str s) (navSet (.obj fs) (r2 :: rs) M)).getD cur := by
                rw [navSet, hg]
              have hnsv : navSet cur (.str s :: r2 :: rs) M = D := by
                rw [hunf, hD]; rfl
              rw [hnsv]
              have hgD : jsGet D (.str s) = some (navSet (.obj fs) (r2 :: rs) M) :=
                jsSet_jsGet_same cur (.str s) _ _ _ hg hD
              have hvc : vivChild D (.str s) = navSet (.obj fs) (r2 :: rs) M := by
                simp [vivChild, hgD, hC, isMergeableObject]
              have hih := ih (.obj fs) t M hsp2 hnav2
              simp only [setValueAtPath] at hih
              show setPathAux D (.str s :: r2 :: rs) M = some D
              simp only [setPathAux, hvc, hih]
              exact jsSet_jsSet_same cur (.str s) _ D hD
          | null => simp only [spineOk, hg] at hspine; exact Bool.noConfusion hspine
          | bool b => simp only [spineOk, hg] at hspine; exact Bool.noConfusion hspine
          | num i => simp only [spineOk, hg] at hspine; exact Bool.noConfusion hspine
          | str s1 => simp only [spineOk, hg] at hspine; exact Bool.noConfusion hspine
          | arr es => simp only [spineOk, hg] at hspine; exact Bool.noConfusion hspine

theorem mergeFold_obj (pfs : List (String × JVal)) : ∀ tfs : List (String × JVal),
    pfs.foldl (fun t kv => (jsSet t (.str kv.1) kv.2).getD t) (.obj tfs) =
      .obj (pfs.foldl (fun fs kv => setField fs kv.1 kv.2) tfs) := by
  induction pfs with
  | nil => intro tfs; rfl
  | cons kv rest ih =>
    intro tfs
    simp only [List.foldl_cons, jsSet, segKey, Option.getD_some]
    exact ih (setField tfs kv.1 kv.2)

theorem mergeInto_obj_obj (tfs pfs : List (String × JVal)) :
    mergeInto (.obj tfs) (.obj pfs) = some (.obj (mergeObjFields tfs pfs)) := by
  simp only [mergeInto, mergeObjFields, mergeFold_obj]

theorem getField_none_of_not_mem (pfs : List (String × JVal)) (k : String)
    (h : k ∉ pfs.map Prod.fst) : getField pfs k = none := by
  induction pfs with
  | nil => rfl
  | cons kv rest ih =>
    obtain ⟨k1, v1⟩ := kv
    simp only [List.map_cons, List.mem_cons] at h
    push_neg at h
    simp [getField, Ne.symm h.1, ih h.2]

theorem mergeObjFields_absent (pfs : List (String × JVal)) : ∀ tfs k,
    getField pfs k = none →
    getField (mergeObjFields tfs pfs) k = getField tfs k := by
  induction pfs with
  | nil => intro tfs k _; rfl
  | cons kv rest ih =>
    intro tfs k h
    obtain ⟨k1, v1⟩ := kv
    simp only [getField] at h
    by_cases hk : k1 = k
    · simp [hk] at h
    · simp only [hk, if_false] at h
      simp only [mergeObjFields, List.foldl_cons]
      have := ih (setField tfs k1 v1) k h
      simp only [mergeObjFields] at this
      rw [this, getField_setField_other _ _ _ _ hk]

theorem mergeObjFields_present (pfs : List (String × JVal)) : ∀ tfs k v,
    (pfs.map Prod.fst).Nodup → getField pfs k = some v →
    getField (mergeObjFields tfs pfs) k = some v := by
  induction pfs with
  | nil => intro tfs k v _ h; simp [getField] at h
  | cons kv rest ih =>
    intro tfs k v hnd h
    obtain ⟨k1, v1⟩ := kv
    simp only [List.map_cons, List.nodup_cons] at hnd
    simp only [getField] at h
    by_cases hk : k1 = k
    · subst hk
      simp only [if_true] at h
      have hv : v1 = v := by simpa using h
      have hrest : getField rest k1 = none := getField_none_of_not_mem rest k1 hnd.1
      simp only [mergeObjFields, List.foldl_cons]
      have h2 := mergeObjFields_absent rest (setField tfs k1 v1) k1 hrest
      simp only [mergeObjFields] at h2
      rw [h2, getField_setField_same, hv]
    · simp only [hk, if_false] at h
      simp only [mergeObjFields, List.foldl_cons]
      have := ih (setField tfs k1 v1) k v hnd.2 h
      simpa [mergeObjFields] using this

/-- C2 counterexample: the value at the full path [0, "x"] is an object,
yet the edit does not merge into it: the write-back pass replaces the
object met at the numeric segment with an empty array, so the merged
branch is lost entirely instead of preserving untouched keys. -/
theorem claimC2_counterexample :
    navGetFold (.obj [("0", .obj [("x", .obj [("b", .num 1)])])]) [.num 0, .str "x"] =
      some (.obj [("b", .num 1)]) ∧
    saveValue "\x7b\"0\": \x7b\"x\": \x7b\"b\": 1\x7d\x7d\x7d"
        (some ⟨"n", [⟨some "b", "1", "number"⟩], some [.num 0, .str "x"]⟩)
        "\x7b\"c\": 2\x7d" =
      some (.obj [("0", .arr [])]) ∧
    some (JVal.obj [("0", .arr [])]) ≠
      some (JVal.obj [("0", .obj [("x", .obj [("b", .num 1), ("c", .num 2)])])]) :=
  ⟨rfl, rfl, by decide⟩

/-- C2 amended: a container edit whose full path reaches an object over a
type-matched spine (numeric segments meet arrays, key segments meet
objects) merges every top-level key of the parsed object into it,
overwriting in place and appending new keys, while keys absent from the
edited text keep their original value; the rest of the document is
unchanged.  On spines that are not type-matched (a numeric segment
addressing an object key), the write-back pass of the source replaces the
mismatched container and the merge is lost. -/
theorem claimC2 : ∀ (stored draft : String) (nd : NodeData) (doc : JVal)
    (p : List Seg) (tfs pfs : List (String × JVal)),
    jsonParse stored = some doc → jsonParse draft = some (.obj pfs) →
    isLeafShape nd.text = false → nd.path = some p →
    navGetFold doc p = some (.obj tfs) → spineOk doc p = true →
    saveValue stored (some nd) draft =
        some (navSet doc p (.obj (mergeObjFields tfs pfs))) ∧
    (∀ k, getField pfs k = none →
        getField (mergeObjFields tfs pfs) k = getField tfs k) ∧
    ((pfs.map Prod.fst).Nodup → ∀ k v, getField pfs k = some v →
        getField (mergeObjFields tfs pfs) k = some v) := by
  intro stored draft nd doc p tfs pfs hs hd hleaf hp hnav hspine
  refine ⟨?_, fun k => mergeObjFields_absent pfs tfs k,
    fun hnd k v => mergeObjFields_present pfs tfs k v hnd⟩
  simp only [saveValue, hs, hd, applyNodeLogic, hleaf, hp, Option.getD_some,
    Bool.false_eq_true, if_false, hnav, isMergeableObject, mergeInto_obj_obj]
  exact navWriteback p doc (.obj tfs) (.obj (mergeObjFields tfs pfs)) hspine hnav

theorem claimC2_witness :
    saveValue "\x7b\"a\": \x7b\"b\": 1, \"c\": 2\x7d\x7d"
        (some ⟨"n", [⟨some "b", "1", "number"⟩], some [.str "a"]⟩) "\x7b\"b\": 5\x7d" =
      some (.obj [("a", .obj [("b", .num 5), ("c", .num 2)])]) :=
  ((claimC2 "\x7b\"a\": \x7b\"b\": 1, \"c\": 2\x7d\x7d" "\x7b\"b\": 5\x7d"
      ⟨"n", [⟨some "b", "1", "number"⟩], some [.str "a"]⟩
      (.obj [("a", .obj [("b", .num 1), ("c", .num 2)])]) [.str "a"]
      [("b", .num 1), ("c", .num 2)] [("b", .num 5)]
      rfl rfl rfl rfl rfl rfl).1).trans rfl

theorem natDigitsAux_eq (fuel : Nat) : ∀ n : Nat, n ≤ fuel →
    natDigitsAux fuel n = Nat.digits 10 n := by
  induction fuel with
  | zero =>
    intro n h
    have hn : n = 0 := by omega
    subst hn
    simp [natDigitsAux]
  | succ fuel ih =>
    intro n h
    by_cases hn : n = 0
    · subst hn; simp [natDigitsAux]
    · have hdiv : n / 10 ≤ fuel := by
        have := Nat.div_lt_self (Nat.pos_of_ne_zero hn) (by norm_num : 1 < 10)
        omega
      rw [natDigitsAux]
      simp only [hn, if_false]
      rw [ih (n / 10) hdiv, Nat.digits_def' (by norm_num : 1 < 10) (Nat.pos_of_ne_zero hn)]

theorem natDigitsLE_eq (n : Nat) : natDigitsLE n = Nat.digits 10 n :=
  natDigitsAux_eq n n le_rfl

theorem digitChar_isDigit (d : Nat) (h : d < 10) : (Char.ofNat (48 + d)).isDigit = true := by
  interval_cases d <;> decide

theorem digitChar_toNat (d : Nat) (h : d < 10) : (Char.ofNat (48 + d)).toNat = 48 + d := by
  interval_cases d <;> decide

theorem digitChar_ne_zeroChar (d : Nat) (h : d < 10) (hd : d ≠ 0) :
    Char.ofNat (48 + d) ≠ '0' := by
  interval_cases d
  · exact absurd rfl hd
  all_goals decide

theorem natChars_ne_nil (n : Nat) : natChars n ≠ [] := by
  unfold natChars
  by_cases hn : n = 0
  · simp [hn]
  · simp only [hn, if_false, ne_eq, List.reverse_eq_nil_iff, List.map_eq_nil_iff]
    rw [natDigitsLE_eq]
    exact Nat.digits_ne_nil_iff_ne_zero.mpr hn

theorem natChars_all_digits (n : Nat) : ∀ c ∈ natChars n, c.isDigit = true := by
  intro c hc
  unfold natChars at hc
  by_cases hn : n = 0
  · simp [hn] at hc
    subst hc; decide
  · simp only [hn, if_false, List.mem_reverse, List.mem_map] at hc
    obtain ⟨d, hd, rfl⟩ := hc
    rw [natDigitsLE_eq] at hd
    exact digitChar_isDigit d (Nat.digits_lt_base (by norm_num) hd)

theorem natChars_no_leading_zero (n : Nat) : ∀ d ds, natChars n = d :: ds →
    ¬(d = '0' ∧ ds ≠ []) := by
  intro d ds h
  rintro ⟨rfl, hds⟩
  by_cases hn : n = 0
  · rw [hn] at h
    have h0 : natChars 0 = ['0'] := rfl
    rw [h0] at h
    exact hds (List.cons.inj h).2.symm
  · have hne : Nat.digits 10 n ≠ [] := Nat.digits_ne_nil_iff_ne_zero.mpr hn
    have hform : natChars n = ((Nat.digits 10 n).map (fun d => Char.ofNat (48 + d))).reverse := by
      simp [natChars, hn, natDigitsLE_eq]
    rw [hform] at h
    have hA : (Nat.digits 10 n).map (fun d => Char.ofNat (48 + d)) = ds.reverse ++ ['0'] := by
      have := congrArg List.reverse h
      simpa using this
    have h1 : ((Nat.digits 10 n).map (fun d => Char.ofNat (48 + d))).getLast? = some '0' := by
      rw [hA, List.getLast?_concat]
    rw [List.getLast?_map] at h1
    obtain ⟨dl, hdl, hfd⟩ : ∃ dl, (Nat.digits 10 n).getLast? = some dl ∧
        Char.ofNat (48 + dl) = '0' := by
      cases hgl : (Nat.digits 10 n).getLast? with
      | none => rw [hgl] at h1; simp at h1
      | some dl =>
        rw [hgl] at h1
        simp at h1
        exact ⟨dl, rfl, h1⟩
    obtain ⟨hne2, hdleq⟩ :=
      List.mem_getLast?_eq_getLast (l := Nat.digits 10 n) (x := dl) (Option.mem_def.mpr hdl)
    have hdl_mem : dl ∈ Nat.digits 10 n := by
      rw [hdleq]; exact List.getLast_mem hne2
    have hdl10 : dl < 10 := Nat.digits_lt_base (by norm_num) hdl_mem
    have hdlnz : dl ≠ 0 := by
      rw [hdleq]; exact Nat.getLast_digit_ne_zero 10 hn
    exact digitChar_ne_zeroChar dl hdl10 hdlnz hfd

theorem takeDigits_append (ds : List Char) (rest : List Char)
    (hds : ∀ c ∈ ds, c.isDigit = true)
    (hrest : ∀ c cs, rest = c :: cs → c.isDigit = false) :
    takeDigits (ds ++ rest) = (ds, rest) := by
  induction ds with
  | nil =>
    cases rest with
    | nil => rfl
    | cons c cs => simp [takeDigits, hrest c cs rfl]
  | cons c ds ih =>
    have hc : c.isDigit = true := hds c (by simp)
    have ihh := ih (fun x hx => hds x (by simp [hx]))
    simp [takeDigits, hc, ihh]

theorem foldr_ofDigits (ds : List Nat) :
    ds.foldr (fun d acc => acc * 10 + d) 0 = Nat.ofDigits 10 ds := by
  induction ds with
  | nil => simp [Nat.ofDigits]
  | cons d ds ih => simp [Nat.ofDigits_cons, ih]; ring

theorem foldr_digit_chars (ds : List Nat) (h : ∀ d ∈ ds, d < 10) :
    (ds.map (fun d => Char.ofNat (48 + d))).foldr (fun c acc => acc * 10 + (c.toNat - 48)) 0 =
      ds.foldr (fun d acc => acc * 10 + d) 0 := by
  induction ds with
  | nil => rfl
  | cons d ds ih =>
    simp only [List.map_cons, List.foldr_cons]
    rw [ih (fun x hx => h x (by simp [hx])), digitChar_toNat d (h d (by simp))]
    omega

theorem digitsVal_natChars (n : Nat) : digitsVal (natChars n) = n := by
  by_cases hn : n = 0
  · subst hn; decide
  · have hform : natChars n = ((Nat.digits 10 n).map (fun d => Char.ofNat (48 + d))).reverse := by
      simp [natChars, hn, natDigitsLE_eq]
    rw [hform]
    unfold digitsVal
    rw [List.foldl_reverse]
    have h1 := foldr_digit_chars (Nat.digits 10 n)
      (fun d hd => Nat.digits_lt_base (by norm_num) hd)
    have h2 := foldr_ofDigits (Nat.digits 10 n)
    calc ((Nat.digits 10 n).map (fun d => Char.ofNat (48 + d))).foldr
          (fun c acc => acc * 10 + (c.toNat - 48)) 0
        = (Nat.digits 10 n).foldr (fun d acc => acc * 10 + d) 0 := h1
      _ = Nat.ofDigits 10 (Nat.digits 10 n) := h2
      _ = n := Nat.ofDigits_digits 10 n

theorem parseNatPart_rt (n : Nat) (rest : List Char)
    (hrest : ∀ c cs, rest = c :: cs → c.isDigit = false) :
    parseNatPart (natChars n ++ rest) = some (n, rest) := by
  have htd := takeDigits_append (natChars n) rest (natChars_all_digits n) hrest
  obtain ⟨d, ds, hnc⟩ : ∃ d ds, natChars n = d :: ds := by
    cases h : natChars n with
    | nil => exact absurd h (natChars_ne_nil n)
    | cons d ds => exact ⟨d, ds, rfl⟩
  have hlz := natChars_no_leading_zero n d ds hnc
  have step : parseNatPart (natChars n ++ rest) =
      (if d = '0' ∧ ds ≠ [] then none else some (digitsVal (d :: ds), rest)) := by
    rw [parseNatPart, htd, hnc]
  rw [step, if_neg hlz, ← hnc, digitsVal_natChars]

theorem escList_cons (c : Char) (cs : List Char) :
    escList (c :: cs) = escChar c ++ escList cs := rfl

theorem escChar_len_pos (c : Char) : 1 ≤ (escChar c).length := by
  unfold escChar
  split_ifs <;> simp

theorem psf_quote (f : Nat) (cs : List Char) :
    parseStrCharsF (f + 1) (qChar :: cs) = some ([], cs) := by
  rw [parseStrCharsF.eq_def]
  simp

theorem psf_u (f : Nat) (cs2 : List Char) :
    parseStrCharsF (f + 1) (bChar :: 'u' :: cs2) =
      (match parseUEscape cs2 with
       | some (ch, cs3) => (parseStrCharsF f cs3).map (fun p => (ch :: p.1, p.2))
       | none => none) := by
  rw [parseStrCharsF.eq_def]
  simp [show ¬(bChar = qChar) by decide]

theorem psf_esc (f : Nat) (e : Char) (cs2 : List Char) (he : ¬ e = 'u') :
    parseStrCharsF (f + 1) (bChar :: e :: cs2) =
      (match escCode e with
       | some ch => (parseStrCharsF f cs2).map (fun p => (ch :: p.1, p.2))
       | none => none) := by
  rw [parseStrCharsF.eq_def]
  simp [show ¬(bChar = qChar) by decide, he]

theorem psf_lit (f : Nat) (c : Char) (cs : List Char) (h1 : ¬ c = qChar)
    (h2 : ¬ c = bChar) (h3 : ¬ c.toNat < 32) :
    parseStrCharsF (f + 1) (c :: cs) =
      (parseStrCharsF f cs).map (fun p => (c :: p.1, p.2)) := by
  rw [parseStrCharsF.eq_def]
  simp [h1, h2, h3]

theorem parseUEscape_hex (hi lo : Nat) (hhi : hi < 2) (hlo : lo < 16) (tl : List Char) :
    parseUEscape ('0' :: '0' :: hexCharL hi :: hexCharL lo :: tl) =
      some (Char.ofNat (hi * 16 + lo), tl) := by
  interval_cases hi <;> interval_cases lo <;> rfl

theorem parseStrCharsF_rt (cs : List Char) : ∀ (fuel : Nat) (rest : List Char),
    (escList cs).length < fuel →
    parseStrCharsF fuel (escList cs ++ qChar :: rest) = some (cs, rest) := by
  induction cs with
  | nil =>
    intro fuel rest h
    cases fuel with
    | zero => omega
    | succ f => exact psf_quote f rest
  | cons c cs ih =>
    intro fuel rest h
    rw [escList_cons] at h ⊢
    rw [List.length_append] at h
    rw [List.append_assoc]
    cases fuel with
    | zero => omega
    | succ f =>
      have hlen : (escList cs).length < f := by
        have := escChar_len_pos c
        omega
      by_cases h1 : c = qChar
      · subst h1
        rw [show escChar qChar = [bChar, qChar] from rfl]
        simp only [List.cons_append, List.nil_append]
        rw [psf_esc f qChar _ (by decide)]
        rw [show escCode qChar = some qChar from rfl]
        rw [ih f rest hlen]
        rfl
      · by_cases h2 : c = bChar
        · subst h2
          rw [show escChar bChar = [bChar, bChar] from by decide]
          simp only [List.cons_append, List.nil_append]
          rw [psf_esc f bChar _ (by decide)]
          rw [show escCode bChar = some bChar from by decide]
          rw [ih f rest hlen]
          rfl
        · by_cases h3 : c = Char.ofNat 8
          · subst h3
            rw [show escChar (Char.ofNat 8) = [bChar, 'b'] from by decide]
            simp only [List.cons_append, List.nil_append]
            rw [psf_esc f 'b' _ (by decide)]
            rw [show escCode 'b' = some (Char.ofNat 8) from by decide]
            rw [ih f rest hlen]
            rfl
          · by_cases h4 : c = Char.ofNat 12
            · subst h4
              rw [show escChar (Char.ofNat 12) = [bChar, 'f'] from by decide]
              simp only [List.cons_append, List.nil_append]
              rw [psf_esc f 'f' _ (by decide)]
              rw [show escCode 'f' = some (Char.ofNat 12) from by decide]
              rw [ih f rest hlen]
              rfl
            · by_cases h5 : c = '\n'
              · subst h5
                rw [show escChar '\n' = [bChar, 'n'] from by decide]
                simp only [List.cons_append, List.nil_append]
                rw [psf_esc f 'n' _ (by decide)]
                rw [show escCode 'n' = some '\n' from by decide]
                rw [ih f rest hlen]
                rfl
              · by_cases h6 : c = '\r'
                · subst h6
                  rw [show escChar '\r' = [bChar, 'r'] from by decide]
                  simp only [List.cons_append, List.nil_append]
                  rw [psf_esc f 'r' _ (by decide)]
                  rw [show escCode 'r' = some '\r' from by decide]
                  rw [ih f rest hlen]
                  rfl
                · by_cases h7 : c = '\t'
                  · subst h7
                    rw [show escChar '\t' = [bChar, 't'] from by decide]
                    simp only [List.cons_append, List.nil_append]
                    rw [psf_esc f 't' _ (by decide)]
                    rw [show escCode 't' = some '\t' from by decide]
                    rw [ih f rest hlen]
                    rfl
                  · by_cases h8 : c.toNat < 32
                    · have hesc : escChar c =
                          [bChar, 'u', '0', '0', hexCharL (c.toNat / 16),
                            hexCharL (c.toNat % 16)] := by
                        simp [escChar, h1, h2, h3, h4, h5, h6, h7, h8]
                      rw [hesc]
                      simp only [List.cons_append, List.nil_append]
                      rw [psf_u f]
                      rw [parseUEscape_hex (c.toNat / 16) (c.toNat % 16) (by omega) (by omega)]
                      have hc : c.toNat / 16 * 16 + c.toNat % 16 = c.toNat := by omega
                      simp only [hc, Char.ofNat_toNat]
                      show (parseStrCharsF f (escList cs ++ qChar :: rest)).map
                          (fun p => (c :: p.1, p.2)) = some (c :: cs, rest)
                      rw [ih f rest hlen]
                      rfl
                    · have hesc : escChar c = [c] := by
                        simp [escChar, h1, h2, h3, h4, h5, h6, h7, h8]
                      rw [hesc, List.singleton_append]
                      rw [psf_lit f c _ h1 h2 h8]
                      rw [ih f rest hlen]
                      rfl

theorem parseStrChars_rt (cs : List Char) (rest : List Char) :
    parseStrChars (escList cs ++ qChar :: rest) = some (cs, rest) := by
  unfold parseStrChars
  apply parseStrCharsF_rt
  simp only [List.length_append, List.length_cons]
  omega

theorem strMk_data : ∀ s : String, String.mk s.data = s
  | ⟨_⟩ => rfl

theorem isDigit_ne_qChar (c : Char) (h : c.isDigit = true) : ¬ c = qChar := by
  intro hc
  rw [hc] at h
  exact absurd h (by decide)

theorem quoteChars_cons (s : String) (rest : List Char) :
    quoteChars s ++ rest = qChar :: (escList s.data ++ qChar :: rest) := by
  simp [quoteChars]

theorem decodeSeg_str (s : String) (rest : List Char) :
    decodeSeg (quoteChars s ++ rest) = some (.str s, rest) := by
  rw [quoteChars_cons]
  show (parseStrChars (escList s.data ++ qChar :: rest)).map
      (fun p => (Seg.str (String.mk p.1), p.2)) = some (.str s, rest)
  rw [parseStrChars_rt]
  simp [strMk_data]

theorem decodeSeg_num (n : Nat) (rest : List Char)
    (hrest : ∀ c cs, rest = c :: cs → c.isDigit = false) :
    decodeSeg (natChars n ++ rest) = some (.num n, rest) := by
  obtain ⟨d, ds, hnc⟩ : ∃ d ds, natChars n = d :: ds := by
    cases h : natChars n with
    | nil => exact absurd h (natChars_ne_nil n)
    | cons d ds => exact ⟨d, ds, rfl⟩
  have hd : d.isDigit = true := natChars_all_digits n d (by rw [hnc]; simp)
  have hpn := parseNatPart_rt n rest hrest
  rw [hnc] at hpn ⊢
  rw [List.cons_append]
  rw [decodeSeg]
  rw [if_neg (isDigit_ne_qChar d hd), if_pos hd]
  rw [← List.cons_append, hpn]

theorem segJChars_rt (s : Seg) (rest : List Char)
    (hrest : ∀ c cs, rest = c :: cs → c.isDigit = false) :
    decodeSeg (segJChars s ++ rest) = some (s, rest) := by
  cases s with
  | num n => exact decodeSeg_num n rest hrest
  | str t => exact decodeSeg_str t rest

theorem comma_not_digit : (','.isDigit) = false := by decide

theorem rbracket_not_digit : (']'.isDigit) = false := by decide

theorem decodeSegsAux_rt (p : List Seg) : ∀ (s : Seg) (fuel : Nat) (rest : List Char),
    (s :: p).length ≤ fuel →
    decodeSegsAux fuel (joinSep [','] ((s :: p).map segJChars) ++ ']' :: rest) =
      some (s :: p, rest) := by
  induction p with
  | nil =>
    intro s fuel rest h
    cases fuel with
    | zero => simp at h
    | succ f =>
      rw [decodeSegsAux]
      rw [show joinSep [','] ([s].map segJChars) = segJChars s from rfl]
      rw [segJChars_rt s (']' :: rest)
        (fun c cs hc => by cases hc; exact rbracket_not_digit)]
      rfl
  | cons s2 ps ih =>
    intro s fuel rest h
    cases fuel with
    | zero => simp at h
    | succ f =>
      rw [decodeSegsAux]
      have hjoin : joinSep [','] ((s :: s2 :: ps).map segJChars) =
          segJChars s ++ ',' :: joinSep [','] ((s2 :: ps).map segJChars) := by
        simp [joinSep]
      rw [hjoin, List.append_assoc, List.cons_append]
      rw [segJChars_rt s (',' :: (joinSep [','] ((s2 :: ps).map segJChars) ++ ']' :: rest))
        (fun c cs hc => by cases hc; exact comma_not_digit)]
      have hih := ih s2 f rest (by simp at h ⊢; omega)
      simp only [hih]
      rfl

theorem segJChars_ne_nil (s : Seg) : segJChars s ≠ [] := by
  cases s with
  | num n => exact natChars_ne_nil n
  | str t => simp [segJChars, quoteChars]

theorem segJChars_head_ne_rbracket (s : Seg) : ∀ c cs, segJChars s = c :: cs → c ≠ ']' := by
  intro c cs h
  cases s with
  | num n =>
    have hd : c.isDigit = true := natChars_all_digits n c (by rw [show natChars n = segJChars (.num n) from rfl, h]; simp)
    intro hc
    subst hc
    simp at hd
  | str t =>
    simp [segJChars, quoteChars] at h
    intro hc
    rw [hc] at h
    exact absurd h.1.symm (by decide)

theorem joinSep_len_ge (p : List Seg) :
    p.length ≤ (joinSep [','] (p.map segJChars)).length := by
  induction p with
  | nil => simp [joinSep]
  | cons s ps ih =>
    cases ps with
    | nil =>
      have := segJChars_ne_nil s
      have : 1 ≤ (segJChars s).length := by
        cases h : segJChars s with
        | nil => exact absurd h this
        | cons c cs => simp
      simpa [joinSep] using this
    | cons s2 ps2 =>
      have hjoin : joinSep [','] ((s :: s2 :: ps2).map segJChars) =
          segJChars s ++ ',' :: joinSep [','] ((s2 :: ps2).map segJChars) := by
        simp [joinSep]
      rw [hjoin]
      simp only [List.length_append, List.length_cons]
      have h1 : 1 ≤ (segJChars s).length := by
        cases h : segJChars s with
        | nil => exact absurd h (segJChars_ne_nil s)
        | cons c cs => simp
      simp at ih ⊢
      omega

theorem decodePath_rt (p : List Seg) : decodePath (pathToJsonString p) = some p := by
  cases p with
  | nil => rfl
  | cons s ps =>
    obtain ⟨c, cs, hhead⟩ : ∃ c cs, joinSep [','] ((s :: ps).map segJChars) = c :: cs := by
      cases hj : joinSep [','] ((s :: ps).map segJChars) with
      | nil =>
        have := joinSep_len_ge (s :: ps)
        rw [hj] at this
        simp at this
      | cons c cs => exact ⟨c, cs, rfl⟩
    have hcne : c ≠ ']' := by
      obtain ⟨c0, cs0, hsj⟩ : ∃ c0 cs0, segJChars s = c0 :: cs0 := by
        cases hj : segJChars s with
        | nil => exact absurd hj (segJChars_ne_nil s)
        | cons c0 cs0 => exact ⟨c0, cs0, rfl⟩
      cases ps with
      | nil =>
        rw [show joinSep [','] ([s].map segJChars) = segJChars s from rfl, hsj] at hhead
        rw [← (List.cons.inj hhead).1]
        exact segJChars_head_ne_rbracket s c0 cs0 hsj
      | cons s2 ps2 =>
        have hjoin : joinSep [','] ((s :: s2 :: ps2).map segJChars) =
            segJChars s ++ ',' :: joinSep [','] ((s2 :: ps2).map segJChars) := by
          simp [joinSep]
        rw [hjoin, hsj, List.cons_append] at hhead
        rw [← (List.cons.inj hhead).1]
        exact segJChars_head_ne_rbracket s c0 cs0 hsj
    have hcs : (joinSep [','] ((s :: ps).map segJChars) ++ [']'] : List Char) ≠ [']'] := by
      rw [hhead]
      intro hc
      cases cs with
      | nil => exact hcne ((List.cons.inj hc).1)
      | cons c2 cs2 => simp at hc
    show (if (joinSep [','] ((s :: ps).map segJChars) ++ [']'] : List Char) = [']'] then
        some []
      else
        match decodeSegsAux
            (joinSep [','] ((s :: ps).map segJChars) ++ [']'] : List Char).length
            (joinSep [','] ((s :: ps).map segJChars) ++ [']']) with
        | some (p, []) => some p
        | _ => none) = some (s :: ps)
    rw [if_neg hcs]
    have hlen : (s :: ps).length ≤
        (joinSep [','] ((s :: ps).map segJChars) ++ [']'] : List Char).length := by
      have h0 := joinSep_len_ge (s :: ps)
      simp only [List.length_cons] at h0
      simp only [List.length_append, List.length_cons, List.length_nil]
      omega
    have hrt := decodeSegsAux_rt ps s
      ((joinSep [','] ((s :: ps).map segJChars) ++ [']'] : List Char).length) [] hlen
    rw [show (joinSep [','] ((s :: ps).map segJChars) ++ ']' :: ([] : List Char)) =
      (joinSep [','] ((s :: ps).map segJChars) ++ [']'] : List Char) from by simp] at hrt
    rw [hrt]

theorem pathToJsonString_inj (p q : List Seg)
    (h : pathToJsonString p = pathToJsonString q) : p = q := by
  have hp := decodePath_rt p
  have hq := decodePath_rt q
  rw [h] at hp
  rw [hp] at hq
  exact (Option.some.inj hq)

/-- C8: the Re-locator returns a node whose path is segment-wise equal to
the target path whenever it returns one; it reports not-found exactly when
no node path matches, and it finds a node whenever one matches.  The
string comparison the source performs coincides with structural equality
because the compact path serialization is injective. -/
theorem claimC8 : ∀ (nodes : List NodeData) (target : Option (List Seg)),
    (∀ n, relocateNode nodes target = some n → n.path.getD [] = target.getD []) ∧
    (relocateNode nodes target = none →
      ∀ n ∈ nodes, n.path.getD [] ≠ target.getD []) ∧
    ((∃ n ∈ nodes, n.path.getD [] = target.getD []) →
      (relocateNode nodes target).isSome) := by
  intro nodes target
  refine ⟨?_, ?_, ?_⟩
  · intro n h
    have hp := List.find?_some h
    have hs : pathToJsonString (n.path.getD []) = pathToJsonString (target.getD []) :=
      eq_of_beq hp
    exact pathToJsonString_inj _ _ hs
  · intro h n hn heq
    have hnp := List.find?_eq_none.mp h n hn
    rw [heq] at hnp
    simp at hnp
  · rintro ⟨n, hn, heq⟩
    apply List.find?_isSome.mpr
    refine ⟨n, hn, ?_⟩
    rw [heq]
    simp

theorem claimC8_witness :
    (⟨"a", [], some [Seg.str "a"]⟩ : NodeData).path.getD [] =
      (some [Seg.str "a"]).getD [] :=
  (claimC8 [⟨"a", [], some [.str "a"]⟩] (some [.str "a"])).1
    ⟨"a", [], some [.str "a"]⟩ rfl

theorem setField_mem (fs : List (String × JVal)) (k : String) (v : JVal) :
    ∀ kv ∈ setField fs k v, kv ∈ fs ∨ kv = (k, v) := by
  induction fs with
  | nil => intro kv h; simp [setField] at h; simp [h]
  | cons kv0 fs ih =>
    intro kv h
    obtain ⟨k0, v0⟩ := kv0
    by_cases hk : k0 = k
    · simp only [setField, hk, if_true] at h
      rcases List.mem_cons.mp h with h1 | h1
      · right; exact h1
      · left; simp [h1]
    · simp only [setField, hk, if_false] at h
      rcases List.mem_cons.mp h with h1 | h1
      · left; simp [h1]
      · rcases ih kv h1 with h2 | h2
        · left; simp [h2]
        · right; exact h2

theorem rowsToObj_vals (rows : List Row) :
    ∀ kv ∈ rowsToObj rows, ∃ t, kv.2 = .str t := by
  have hgen : ∀ (rs : List Row) (acc : List (String × JVal)),
      (∀ kv ∈ acc, ∃ t, kv.2 = JVal.str t) →
      ∀ kv ∈ rs.foldl (fun acc r =>
        if r.type ≠ "array" ∧ r.type ≠ "object" ∧ rowKeyTruthy r then
          setField acc (r.key.getD "") (.str r.value)
        else acc) acc, ∃ t, kv.2 = JVal.str t := by
    intro rs
    induction rs with
    | nil => intro acc hacc kv h; exact hacc kv h
    | cons r rs ih =>
      intro acc hacc kv h
      simp only [List.foldl_cons] at h
      by_cases hr : r.type ≠ "array" ∧ r.type ≠ "object" ∧ rowKeyTruthy r
      · rw [if_pos hr] at h
        refine ih _ ?_ kv h
        intro kv2 h2
        rcases setField_mem acc (r.key.getD "") (.str r.value) kv2 h2 with h3 | h3
        · exact hacc kv2 h3
        · exact ⟨r.value, by rw [h3]⟩
      · rw [if_neg hr] at h
        exact ih acc hacc kv h
  intro kv h
  exact hgen rows [] (by simp) kv h

theorem insByIdx_perm (x : (String × JVal) × Nat) (l : List ((String × JVal) × Nat)) :
    (insByIdx x l).Perm (x :: l) := by
  induction l with
  | nil => simp [insByIdx]
  | cons y ys ih =>
    simp only [insByIdx]
    by_cases h : x.2 ≤ y.2
    · rw [if_pos h]
    · rw [if_neg h]
      exact (List.Perm.cons y ih).trans (List.Perm.swap x y ys)

theorem foldrIns_perm (l : List ((String × JVal) × Nat)) :
    (l.foldr insByIdx []).Perm l := by
  induction l with
  | nil => simp
  | cons x xs ih =>
    simp only [List.foldr_cons]
    exact (insByIdx_perm x _).trans (List.Perm.cons x ih)

theorem filterMapIdx_map_fst (fs : List (String × JVal)) :
    (fs.filterMap (fun kv =>
      match arrayIndex? kv.1 with
      | some n => some (kv, n)
      | none => none)).map Prod.fst =
    fs.filter (fun kv => (arrayIndex? kv.1).isSome) := by
  induction fs with
  | nil => rfl
  | cons kv fs ih =>
    rcases h : arrayIndex? kv.1 with _ | n
    · simp [List.filterMap_cons, List.filter_cons, h, ih]
    · simp [List.filterMap_cons, List.filter_cons, h, ih]

theorem jsOwnOrder_perm (fs : List (String × JVal)) : (jsOwnOrder fs).Perm fs := by
  have hmain : jsOwnOrder fs =
      ((fs.filterMap (fun kv =>
        match arrayIndex? kv.1 with
        | some n => some (kv, n)
        | none => none)).foldr insByIdx []).map Prod.fst ++
      fs.filter (fun kv => (arrayIndex? kv.1).isNone) := rfl
  rw [hmain]
  have h1 := (foldrIns_perm (fs.filterMap (fun kv =>
    match arrayIndex? kv.1 with
    | some n => some (kv, n)
    | none => none))).map Prod.fst
  rw [filterMapIdx_map_fst] at h1
  have h2 : fs.filter (fun kv => (arrayIndex? kv.1).isNone) =
      fs.filter (fun kv => !(arrayIndex? kv.1).isSome) := by
    apply List.filter_congr
    intro kv _
    cases arrayIndex? kv.1 <;> simp
  rw [h2]
  have h3 := List.Perm.append h1
    (List.Perm.refl (fs.filter (fun kv => !(arrayIndex? kv.1).isSome)))
  exact h3.trans (List.filter_append_perm _ fs)

theorem mem_keys_setField (fs : List (String × JVal)) (k : String) (v : JVal) (k2 : String)
    (h : k2 ∈ (setField fs k v).map Prod.fst) : k2 ∈ fs.map Prod.fst ∨ k2 = k := by
  rcases List.mem_map.mp h with ⟨kv, hkv, hfst⟩
  rcases setField_mem fs k v kv hkv with h1 | h1
  · left; exact hfst ▸ List.mem_map_of_mem Prod.fst h1
  · right; rw [← hfst, h1]

theorem setField_nodup_keys (fs : List (String × JVal)) (k : String) (v : JVal)
    (h : (fs.map Prod.fst).Nodup) : ((setField fs k v).map Prod.fst).Nodup := by
  induction fs with
  | nil => simp [setField]
  | cons kv0 fs ih =>
    obtain ⟨k0, v0⟩ := kv0
    simp only [List.map_cons, List.nodup_cons] at h
    by_cases hk : k0 = k
    · simp only [setField, hk, if_true, List.map_cons, List.nodup_cons]
      exact ⟨hk ▸ h.1, h.2⟩
    · simp only [setField, hk, if_false, List.map_cons, List.nodup_cons]
      constructor
      · intro hmem
        rcases mem_keys_setField fs k v k0 hmem with h1 | h1
        · exact h.1 h1
        · exact hk h1
      · exact ih h.2

theorem rowsToObj_nodup_keys (rows : List Row) :
    ((rowsToObj rows).map Prod.fst).Nodup := by
  have hgen : ∀ (rs : List Row) (acc : List (String × JVal)),
      (acc.map Prod.fst).Nodup →
      ((rs.foldl (fun acc r =>
        if r.type ≠ "array" ∧ r.type ≠ "object" ∧ rowKeyTruthy r then
          setField acc (r.key.getD "") (.str r.value)
        else acc) acc).map Prod.fst).Nodup := by
    intro rs
    induction rs with
    | nil => intro acc hacc; exact hacc
    | cons r rs ih =>
      intro acc hacc
      simp only [List.foldl_cons]
      by_cases hr : r.type ≠ "array" ∧ r.type ≠ "object" ∧ rowKeyTruthy r
      · rw [if_pos hr]
        exact ih _ (setField_nodup_keys acc _ _ hacc)
      · rw [if_neg hr]
        exact ih acc hacc
  exact hgen rows [] (by simp)

theorem setField_append_of_not_mem (fs : List (String × JVal)) (k : String) (v : JVal)
    (h : k ∉ fs.map Prod.fst) : setField fs k v = fs ++ [(k, v)] := by
  induction fs with
  | nil => rfl
  | cons kv0 fs ih =>
    obtain ⟨k0, v0⟩ := kv0
    simp only [List.map_cons, List.mem_cons] at h
    push_neg at h
    simp only [setField, Ne.symm h.1, if_false, List.cons_append]
    rw [ih h.2]

theorem foldl_setField_append (gs : List (String × JVal)) : ∀ acc,
    ((gs.map Prod.fst).Nodup) →
    (∀ k ∈ gs.map Prod.fst, k ∉ acc.map Prod.fst) →
    gs.foldl (fun a kv => setField a kv.1 kv.2) acc = acc ++ gs := by
  induction gs with
  | nil => intro acc _ _; simp
  | cons kv gs ih =>
    intro acc hnd hdis
    obtain ⟨k, v⟩ := kv
    simp only [List.map_cons, List.nodup_cons] at hnd
    simp only [List.foldl_cons]
    rw [setField_append_of_not_mem acc k v (hdis k (by simp))]
    rw [ih (acc ++ [(k, v)]) hnd.2 ?_]
    · simp
    · intro k2 hk2
      simp only [List.map_append, List.mem_append, List.map_cons, List.map_nil,
        List.mem_singleton]
      push_neg
      constructor
      · exact hdis k2 (by simp [hk2])
      · intro hkk
        exact hnd.1 (hkk ▸ hk2)

theorem foldInsertFields_self (gs : List (String × JVal))
    (h : (gs.map Prod.fst).Nodup) : foldInsertFields gs = gs := by
  unfold foldInsertFields
  rw [foldl_setField_append gs [] h (by simp)]
  simp

theorem toObj_stripObj (gs : List (String × JVal))
    (h : ∀ kv ∈ gs, ∃ t, kv.2 = .str t) : toObj (stripObj gs) = gs := by
  induction gs with
  | nil => rfl
  | cons kv gs ih =>
    obtain ⟨k, v⟩ := kv
    obtain ⟨t, ht⟩ := h (k, v) (by simp)
    simp only at ht
    subst ht
    simp only [toObj, stripObj, List.map_cons]
    have := ih (fun kv2 h2 => h (kv2) (by simp [h2]))
    simp only [toObj, stripObj] at this
    rw [this]
    rfl

theorem jsOwnOrder_nodup_keys (fs : List (String × JVal))
    (h : (fs.map Prod.fst).Nodup) : ((jsOwnOrder fs).map Prod.fst).Nodup := by
  have hp := (jsOwnOrder_perm fs).map Prod.fst
  exact hp.nodup_iff.mpr h

theorem jsOwnOrder_vals (fs : List (String × JVal))
    (h : ∀ kv ∈ fs, ∃ t, kv.2 = .str t) :
    ∀ kv ∈ jsOwnOrder fs, ∃ t, kv.2 = .str t := by
  intro kv hkv
  exact h kv ((jsOwnOrder_perm fs).mem_iff.mp hkv)

theorem jsOwnOrder_nil_iff (fs : List (String × JVal)) :
    jsOwnOrder fs = [] ↔ fs = [] := by
  constructor
  · intro h
    have := jsOwnOrder_perm fs
    rw [h] at this
    exact (List.Perm.nil_eq this).symm
  · intro h
    subst h
    rfl

theorem szJF_pos (fs : List (String × JVal)) : 1 ≤ szJF fs := by
  cases fs with
  | nil => simp [szJF]
  | cons kv fs => simp [szJF]

theorem stringifyP_str (f ind : Nat) (v : String) :
    stringifyP (f + 1) ind (.str v) = quoteChars v := by
  rw [stringifyP]

theorem printMembers (l : List (String × String)) : ∀ F : Nat, l ≠ [] →
    joinSep [',', '\n'] ((toObj l).map (fun kv =>
        wsChars 2 ++ quoteChars kv.1 ++ ':' :: ' ' :: stringifyP (F + 1) 2 kv.2)) ++
      '\n' :: wsChars 0 ++ [braceC] = wsChars 2 ++ membersAt l [] := by
  induction l with
  | nil => intro F h; exact absurd rfl h
  | cons kv l2 ih =>
    intro F _
    obtain ⟨k, v⟩ := kv
    cases l2 with
    | nil =>
      show (joinSep [',', '\n']
          [wsChars 2 ++ quoteChars k ++ ':' :: ' ' :: stringifyP (F + 1) 2 (.str v)]) ++
        '\n' :: wsChars 0 ++ [braceC] = wsChars 2 ++ membersAt [(k, v)] []
      rw [show ∀ x : List Char, joinSep [',', '\n'] [x] = x from fun x => rfl]
      rw [stringifyP_str]
      show wsChars 2 ++ quoteChars k ++ ':' :: ' ' :: quoteChars v ++
        '\n' :: wsChars 0 ++ [braceC] = wsChars 2 ++
          (quoteChars k ++ ':' :: ' ' :: (quoteChars v ++ '\n' :: braceC :: []))
      simp [wsChars, List.append_assoc]
    | cons kv2 l3 =>
      obtain ⟨k2, v2⟩ := kv2
      have hih := ih F (by simp)
      show (wsChars 2 ++ quoteChars k ++ ':' :: ' ' :: stringifyP (F + 1) 2 (.str v)) ++
          [',', '\n'] ++ (joinSep [',', '\n'] ((toObj ((k2, v2) :: l3)).map (fun kv =>
            wsChars 2 ++ quoteChars kv.1 ++ ':' :: ' ' :: stringifyP (F + 1) 2 kv.2))) ++
          '\n' :: wsChars 0 ++ [braceC] =
        wsChars 2 ++ membersAt ((k, v) :: (k2, v2) :: l3) []
      rw [stringifyP_str]
      show (wsChars 2 ++ quoteChars k ++ ':' :: ' ' :: quoteChars v) ++
          [',', '\n'] ++ (joinSep [',', '\n'] ((toObj ((k2, v2) :: l3)).map (fun kv =>
            wsChars 2 ++ quoteChars kv.1 ++ ':' :: ' ' :: stringifyP (F + 1) 2 kv.2))) ++
          '\n' :: wsChars 0 ++ [braceC] =
        wsChars 2 ++ (quoteChars k ++ ':' :: ' ' ::
          (quoteChars v ++ ',' :: '\n' :: (wsChars 2 ++ membersAt ((k2, v2) :: l3) [])))
      rw [← hih]
      simp [List.append_assoc]

theorem skipWs_ws_cons (c : Char) (h : isJsonWs c = true) :
    ∀ X : List Char, skipWs (c :: X) = skipWs X := by
  intro X
  rw [skipWs, if_pos h]

theorem skipWs_not_ws (c : Char) (h : isJsonWs c = false) :
    ∀ X : List Char, skipWs (c :: X) = c :: X := by
  intro X
  rw [skipWs, if_neg (by simp [h])]

theorem skipWs_wsChars (n : Nat) (X : List Char) :
    skipWs (wsChars n ++ X) = skipWs X := by
  induction n with
  | zero => rfl
  | succ m ih =>
    show skipWs (List.replicate (m + 1) ' ' ++ X) = skipWs X
    rw [List.replicate_succ, List.cons_append, skipWs_ws_cons ' ' (by decide)]
    exact ih

theorem membersAt_single (k v : String) (rest : List Char) :
    membersAt [(k, v)] rest =
      qChar :: (escList k.data ++
        qChar :: (':' :: ' ' :: (quoteChars v ++ '\n' :: braceC :: rest))) := by
  rw [membersAt, quoteChars_cons]

theorem membersAt_cons2 (k v : String) (x : String × String)
    (l3 : List (String × String)) (rest : List Char) :
    membersAt ((k, v) :: x :: l3) rest =
      qChar :: (escList k.data ++
        qChar :: (':' :: ' ' :: (quoteChars v ++
          ',' :: '\n' :: (wsChars 2 ++ membersAt (x :: l3) rest)))) := by
  rw [membersAt, quoteChars_cons]
  simp

theorem membersAt_cons_shape (k v : String) (l2 : List (String × String))
    (rest : List Char) :
    ∃ T, membersAt ((k, v) :: l2) rest = qChar :: T := by
  cases l2 with
  | nil => exact ⟨_, membersAt_single k v rest⟩
  | cons x l3 => exact ⟨_, membersAt_cons2 k v x l3 rest⟩

theorem skipWs_membersAt (k v : String) (l2 : List (String × String))
    (rest : List Char) :
    skipWs (membersAt ((k, v) :: l2) rest) = membersAt ((k, v) :: l2) rest := by
  obtain ⟨T, hT⟩ := membersAt_cons_shape k v l2 rest
  rw [hT, skipWs_not_ws qChar (by decide)]

theorem parseVal_strVal (F : Nat) (v : String) (t : List Char) :
    parseVal (F + 1) (' ' :: (quoteChars v ++ t)) = some (.str v, t) := by
  rw [parseVal, skipWs_ws_cons ' ' (by decide), quoteChars_cons,
    skipWs_not_ws qChar (by decide)]
  simp only [show ¬(qChar = 'n') by decide, show ¬(qChar = 't') by decide,
    show ¬(qChar = 'f') by decide, if_neg, if_false, ite_false, if_pos rfl,
    if_true, ite_true, parseStrChars_rt, strMk_data]

theorem parseMembers_flat : ∀ (l : List (String × String)) (fuel F : Nat)
    (rest : List Char), l ≠ [] → l.length ≤ fuel →
    parseMembersWith (parseVal (F + 1)) fuel (membersAt l rest) =
      some (toObj l, rest) := by
  intro l
  induction l with
  | nil => intro fuel F rest h _; exact absurd rfl h
  | cons kv l2 ih =>
    intro fuel F rest _ hlen
    obtain ⟨k, v⟩ := kv
    obtain ⟨f, rfl⟩ : ∃ f, fuel = f + 1 := by
      refine ⟨fuel - 1, ?_⟩
      simp only [List.length_cons] at hlen
      omega
    cases l2 with
    | nil =>
      rw [membersAt_single, parseMembersWith]
      simp only [if_pos rfl, if_true, ite_true, parseStrChars_rt, strMk_data,
        skipWs_not_ws ':' (by decide), parseVal_strVal,
        skipWs_ws_cons '\n' (by decide), skipWs_not_ws braceC (by decide),
        show ¬(braceC = ',') by decide, if_neg, if_false, ite_false, toObj,
        List.map]
    | cons x l3 =>
      obtain ⟨k2, v2⟩ := x
      rw [membersAt_cons2, parseMembersWith]
      have hrec := ih f F rest (by simp) (by
        simp only [List.length_cons] at hlen ⊢
        omega)
      simp only [if_pos rfl, if_true, ite_true, parseStrChars_rt, strMk_data,
        skipWs_not_ws ':' (by decide), parseVal_strVal,
        skipWs_not_ws ',' (by decide),
        skipWs_ws_cons '\n' (by decide), skipWs_wsChars, skipWs_membersAt,
        hrec, toObj, List.map]

theorem membersAt_len (l : List (String × String)) (rest : List Char) :
    l.length + rest.length ≤ (membersAt l rest).length := by
  induction l generalizing rest with
  | nil => simp [membersAt]
  | cons kv l2 ih =>
    obtain ⟨k, v⟩ := kv
    cases l2 with
    | nil =>
      rw [membersAt_single]
      simp only [List.length_cons, List.length_append, List.length_nil]
      omega
    | cons x l3 =>
      obtain ⟨k2, v2⟩ := x
      rw [membersAt_cons2]
      have hrec := ih rest
      simp only [List.length_cons, List.length_append] at hrec ⊢
      omega

theorem parseVal_flatObj (l : List (String × String)) (F : Nat)
    (rest : List Char) (hne : l ≠ []) (hlen : l.length ≤ F) :
    parseVal (F + 1) (flatObjChars l rest) =
      some (.obj (foldInsertFields (toObj l)), rest) := by
  obtain ⟨F2, rfl⟩ : ∃ f, F = f + 1 := by
    refine ⟨F - 1, ?_⟩
    cases l with
    | nil => exact absurd rfl hne
    | cons a b =>
      simp only [List.length_cons] at hlen
      omega
  obtain ⟨k, v, l2, rfl⟩ : ∃ k v l2, l = (k, v) :: l2 := by
    cases l with
    | nil => exact absurd rfl hne
    | cons kv l2 => exact ⟨kv.1, kv.2, l2, by simp⟩
  obtain ⟨T, hT⟩ := membersAt_cons_shape k v l2 rest
  show parseVal (F2 + 1 + 1)
      (braceO :: '\n' :: (wsChars 2 ++ membersAt ((k, v) :: l2) rest)) = _
  rw [parseVal, skipWs_not_ws braceO (by decide)]
  simp only [show ¬(braceO = 'n') by decide, show ¬(braceO = 't') by decide,
    show ¬(braceO = 'f') by decide, show ¬(braceO = qChar) by decide,
    if_pos rfl, if_true, ite_true, if_neg, if_false, ite_false,
    skipWs_ws_cons '\n' (by decide), skipWs_wsChars, skipWs_membersAt, hT,
    skipWs_not_ws qChar (by decide), show ¬(qChar = braceC) by decide]
  rw [← hT, parseMembers_flat ((k, v) :: l2) (F2 + 1) F2 rest (by simp) hlen]

theorem stringify_flatObj (fs : List (String × JVal)) (g : String × JVal)
    (gs : List (String × JVal)) (hgs : jsOwnOrder fs = g :: gs)
    (hstr : ∀ kv ∈ fs, ∃ t, kv.2 = .str t) :
    stringifyP (szJF fs + 1) 0 (.obj fs) = flatObjChars (stripObj (g :: gs)) [] := by
  have hvals : ∀ kv ∈ (g :: gs), ∃ t, kv.2 = .str t := by
    rw [← hgs]
    exact jsOwnOrder_vals fs hstr
  have htoObj : toObj (stripObj (g :: gs)) = g :: gs := toObj_stripObj _ hvals
  obtain ⟨F2, hF⟩ : ∃ f, szJF fs = f + 1 :=
    ⟨szJF fs - 1, by have := szJF_pos fs; omega⟩
  have hpm := printMembers (stripObj (g :: gs)) F2 (by simp [stripObj])
  rw [htoObj] at hpm
  rw [stringifyP]
  simp only [hgs, hF, zero_add]
  rw [flatObjChars, ← hpm]

theorem parse_pretty_flat (fs : List (String × JVal))
    (hnd : (fs.map Prod.fst).Nodup) (hstr : ∀ kv ∈ fs, ∃ t, kv.2 = .str t) :
    jsonParse (jsonStringifyPretty (.obj fs)) = some (.obj (jsOwnOrder fs)) := by
  cases hgs : jsOwnOrder fs with
  | nil =>
    have hfs : fs = [] := (jsOwnOrder_nil_iff fs).mp hgs
    subst hfs
    rfl
  | cons g gs =>
    have hvals : ∀ kv ∈ (g :: gs), ∃ t, kv.2 = .str t := by
      rw [← hgs]
      exact jsOwnOrder_vals fs hstr
    have htoObj : toObj (stripObj (g :: gs)) = g :: gs := toObj_stripObj _ hvals
    have hndg : ((g :: gs).map Prod.fst).Nodup := by
      rw [← hgs]
      exact jsOwnOrder_nodup_keys fs hnd
    have hne : stripObj (g :: gs) ≠ [] := by simp [stripObj]
    have hlen : (stripObj (g :: gs)).length ≤
        (flatObjChars (stripObj (g :: gs)) []).length := by
      have hm := membersAt_len (stripObj (g :: gs)) []
      simp only [flatObjChars, List.length_cons, List.length_append,
        List.length_nil] at hm ⊢
      omega
    have hprint : jsonStringifyPretty (.obj fs) =
        String.mk (flatObjChars (stripObj (g :: gs)) []) := by
      rw [jsonStringifyPretty, show szJ (.obj fs) = szJF fs + 1 from by rw [szJ],
        stringify_flatObj fs g gs hgs hstr]
    rw [hprint, jsonParse,
      show (String.mk (flatObjChars (stripObj (g :: gs)) [])).data =
        flatObjChars (stripObj (g :: gs)) [] from rfl,
      parseVal_flatObj (stripObj (g :: gs)) _ [] hne hlen]
    simp only [htoObj, foldInsertFields_self (g :: gs) hndg, skipWs, if_pos rfl,
      if_true, ite_true]

/-- Counterexample to claim C7 as stated: the Normalizer's output for the
row-list [(key "b", "1"), (key "0", "2")] parses to an object whose fields
come out in JavaScript own-property order (the integer-like key "0"
first), not in row-list order. -/
theorem claimC7_counterexample :
    jsonParse (normalizeNodeData
      [⟨some "b", "1", "number"⟩, ⟨some "0", "2", "number"⟩]) =
        some (.obj [("0", .str "2"), ("b", .str "1")]) ∧
    [("0", JVal.str "2"), ("b", JVal.str "1")] ≠
      [("b", JVal.str "1"), ("0", JVal.str "2")] :=
  ⟨rfl, by decide⟩

/-- Claim C7 (corrected): for every row-list that is not leaf-shaped
(including the empty row-list), the Normalizer's output parses
successfully to a JSON object whose fields are exactly the keyed,
non-container entries of the row-list (duplicate keys collapsed to the
last value, as repeated property assignment does), enumerated in
JavaScript own-property order — integer-like keys first in ascending
numeric order, then the remaining keys in row-list order — rather than in
plain row-list order as the claim states; container-typed rows are
excluded.  The empty row-list parses to the empty object. -/
theorem claimC7 (rows : List Row) (h : isLeafShape rows = false) :
    jsonParse (normalizeNodeData rows) =
      some (.obj (jsOwnOrder (rowsToObj rows))) := by
  have hmain : jsonParse (jsonStringifyPretty (.obj (rowsToObj rows))) =
      some (.obj (jsOwnOrder (rowsToObj rows))) :=
    parse_pretty_flat _ (rowsToObj_nodup_keys rows) (rowsToObj_vals rows)
  cases rows with
  | nil => rfl
  | cons r rs =>
    cases rs with
    | nil =>
      have hk : rowKeyTruthy r = true := by
        cases hrk : rowKeyTruthy r with
        | false => rw [isLeafShape] at h; simp [hrk] at h
        | true => rfl
      rw [show normalizeNodeData [r] = jsonStringifyPretty (.obj (rowsToObj [r]))
        from by rw [normalizeNodeData, if_neg (by simp [hk])]]
      exact hmain
    | cons r2 rs2 =>
      rw [show normalizeNodeData (r :: r2 :: rs2) =
          jsonStringifyPretty (.obj (rowsToObj (r :: r2 :: rs2)))
        from by rw [normalizeNodeData] <;> simp]
      exact hmain

/-- Witness for claim C7 at a concrete non-leaf row-list. -/
theorem claimC7_witness :
    isLeafShape [⟨some "a", "1", "number"⟩] = false ∧
    jsonParse (normalizeNodeData [⟨some "a", "1", "number"⟩]) =
      some (.obj (jsOwnOrder (rowsToObj [⟨some "a", "1", "number"⟩]))) :=
  ⟨rfl, claimC7 [⟨some "a", "1", "number"⟩] rfl⟩
